import Mathlib

/-!
Verification development for the L-Spider BitTorrent DHT harvester.

Shallow embedding conventions:
* Byte strings are `List Nat` (each element a byte value 0..255; no claim
  depends on the upper bound).
* Python `time.time()` timestamps and the float constants (180.0, 300.0)
  are modelled as `Int` seconds: the source only adds whole constants to
  timestamps and compares them, which `Int` reproduces exactly.
* Raised exceptions in decoding paths are modelled as `none`.
* The randomness of `random.sample` is modelled by an explicit selection
  function parameter constrained to pick a sub-multiset of the pool.
-/

set_option maxHeartbeats 4000000

namespace LSpider

/-! ## Byte-level helpers -/

/-- Uppercase hex digit of a nibble, as an ASCII byte (`0`-`9`, `A`-`F`). -/
def hexDigitU (n : Nat) : Nat := if n < 10 then 48 + n else 55 + n

/-- Model of Python `bytes.hex().upper()`: two uppercase hex chars per byte. -/
def hexUpper (b : List Nat) : List Nat :=
  b.flatMap fun x => [hexDigitU (x / 16), hexDigitU (x % 16)]

/-- Model of `struct.unpack(">I", b)[0]` on a 4-byte buffer (call sites in the
source guarantee the length; any other length never occurs there). -/
def beU32 : List Nat → Nat
  | [a, b, c, d] => ((a * 256 + b) * 256 + c) * 256 + d
  | _ => 0

/-- Model of Python `bytes.find(single_byte)` on a suffix: index of the first
occurrence of byte `c`, or `none` (Python returns -1 / `bytes.index` raises). -/
def findByte (c : Nat) : List Nat → Option Nat
  | [] => none
  | x :: t => if x = c then some 0 else (findByte c t).map (· + 1)

/-- Model of Python `bytes.find(pattern)`: index of the first position where
`pat` occurs as a contiguous substring of `hay`, or `none`. -/
def findSub (pat : List Nat) : List Nat → Option Nat
  | [] => if pat = [] then some 0 else none
  | x :: t => if pat.isPrefixOf (x :: t) then some 0 else (findSub pat t).map (· + 1)

/-! ## Python `int()` and `str()` on integers

`int(b)` in the source is only ever applied to slices of bencoded data.  We
model the sign-then-digits core of Python's parser (whitespace and `_`
grouping, which Python also tolerates, never arise from bencoded integers the
round-trip theorems exercise and would only make more inputs parse). -/

/-- Accumulating decimal parse: all bytes must be ASCII digits. -/
def goDigits : List Nat → Nat → Option Nat
  | [], acc => some acc
  | c :: cs, acc => if 48 ≤ c ∧ c ≤ 57 then goDigits cs (acc * 10 + (c - 48)) else none

/-- Value of a non-empty all-digit byte string. -/
def digitsVal (l : List Nat) : Option Nat :=
  if l = [] then none else goDigits l 0

/-- Model of Python `int(bytes)`: optional sign, then one or more digits. -/
def pyIntParse (l : List Nat) : Option Int :=
  match l with
  | [] => none
  | c :: ds =>
    if c = 43 then (digitsVal ds).map Int.ofNat
    else if c = 45 then (digitsVal ds).map fun m => -(Int.ofNat m)
    else (digitsVal l).map Int.ofNat

/-- Decimal digits of a natural number, as ASCII bytes (Python `str(n)`). -/
def natDigits (n : Nat) : List Nat :=
  if h : n < 10 then [48 + n]
  else natDigits (n / 10) ++ [48 + n % 10]
termination_by n
decreasing_by
  exact Nat.div_lt_self (by omega) (by omega)

/-- Model of Python `str(i).encode()` for an integer. -/
def intStr (n : Int) : List Nat :=
  if n < 0 then 45 :: natDigits (-n).toNat else natDigits n.toNat

/-! ## Bencoded values

Values produced by bencode decoding (`bencodepy.decode` and the local
`_bdecode` of `magnet.py`): integers, byte strings, lists and dicts.  A dict
is an association list in Python insertion order; byte-string keys only, as
in every value either decoder can produce. -/

inductive BValue where
  | int (n : Int)
  | bytes (s : List Nat)
  | list (xs : List BValue)
  | dict (kvs : List (List Nat × BValue))

/-- First-occurrence lookup in an association list (Python `d.get(k)` /
`d[k]`; lists built by `alSet` have unique keys, so first = only). -/
def alGet {κ ν : Type} [DecidableEq κ] : List (κ × ν) → κ → Option ν
  | [], _ => none
  | (k, v) :: t, key => if k = key then some v else alGet t key

/-- Python `d[k] = v` on an insertion-ordered dict: update in place if the
key exists, else append. -/
def alSet {κ ν : Type} [DecidableEq κ] : List (κ × ν) → κ → ν → List (κ × ν)
  | [], key, v => [(key, v)]
  | (k, w) :: t, key, v =>
    if k = key then (k, v) :: t else (k, w) :: alSet t key v

/-- Python `del d[k]`: remove the first (only) binding of the key. -/
def alRemove {κ ν : Type} [DecidableEq κ] : List (κ × ν) → κ → List (κ × ν)
  | [], _ => []
  | (k, v) :: t, key => if k = key then t else (k, v) :: alRemove t key

/-! ## Well-formedness: values an actual Python dict tree can hold

Python dicts cannot hold duplicate keys, so a value coming from the Python
side has pairwise-distinct keys at every dict node. -/

/-- Pairwise distinctness of a key list, as a Bool. -/
def distinctKeys : List (List Nat) → Bool
  | [] => true
  | k :: t => (!t.contains k) && distinctKeys t

mutual
/-- The value is one a Python program can build: every dict node has
pairwise-distinct byte-string keys. -/
def wfB : BValue → Bool
  | .int _ => true
  | .bytes _ => true
  | .list xs => wfBList xs
  | .dict kvs => distinctKeys (kvs.map Prod.fst) && wfBEntries kvs

def wfBList : List BValue → Bool
  | [] => true
  | x :: t => wfB x && wfBList t

def wfBEntries : List (List Nat × BValue) → Bool
  | [] => true
  | (_, v) :: t => wfB v && wfBEntries t
end

/-! ## `magnet.py` `_bdecode`

The source walks a fixed buffer with an index `i`; we model the walk on the
suffix `data.drop i` and return the number of consumed bytes (always at
least 1, which also witnesses termination of the list/dict loops: each
element parse strictly advances).  Raised `ValueError`/`IndexError` become
`none`.  `data.index(b"e", i)` searches from position `i`, where the byte is
`i` (0x69) and never `e`, so it equals `1 +` the search in the tail. -/

mutual
/-- One bencoded value read from the front of the suffix: the value and the
consumed length (`_bdecode(data, i) = (v, j)` with `j - i` consumed). -/
def bdecAux : List Nat → Option (BValue × { k : Nat // 0 < k })
  | [] => none
  | c :: rest =>
    if c = 105 then
      match findByte 101 rest with
      | none => none
      | some j =>
        match pyIntParse (rest.take j) with
        | none => none
        | some n => some (.int n, ⟨j + 2, by omega⟩)
    else if c = 108 then
      match bdecListAux rest with
      | none => none
      | some (xs, k) => some (.list xs, ⟨k.1 + 1, by omega⟩)
    else if c = 100 then
      match bdecDictAux rest [] with
      | none => none
      | some (kvs, k) => some (.dict kvs, ⟨k.1 + 1, by omega⟩)
    else if 48 ≤ c ∧ c ≤ 57 then
      match findByte 58 (c :: rest) with
      | none => none
      | some colon =>
        match pyIntParse ((c :: rest).take colon) with
        | none => none
        | some n =>
          -- a digit-led slice never parses negative, so `toNat` is exact;
          -- the source has no bounds check: a long length yields a short
          -- slice and an index past the end of the buffer
          some (.bytes (((c :: rest).drop (colon + 1)).take n.toNat),
                ⟨colon + 1 + n.toNat, by omega⟩)
    else none
termination_by l => (l.length, 0)
decreasing_by
  all_goals simp_wf
  · exact Prod.Lex.left _ _ (by omega)
  · exact Prod.Lex.left _ _ (by omega)

/-- The `l...e` element loop of `_bdecode` (`while data[i:i+1] != b"e"`). -/
def bdecListAux : List Nat → Option (List BValue × { k : Nat // 0 < k })
  | [] => none
  | c :: rest =>
    if c = 101 then some ([], ⟨1, by omega⟩)
    else
      match bdecAux (c :: rest) with
      | none => none
      | some (v, k) =>
        match bdecListAux ((c :: rest).drop k.1) with
        | none => none
        | some (vs, k2) => some (v :: vs, ⟨k.1 + k2.1, by omega⟩)
termination_by l => (l.length, 1)
decreasing_by
  all_goals simp_wf
  · exact Prod.Lex.right _ (by omega)
  · have := k.2
    exact Prod.Lex.left _ _ (by omega)

/-- The `d...e` entry loop of `_bdecode`: keys must decode to byte strings;
entries land in the accumulator via `out[k] = v`. -/
def bdecDictAux : List Nat → List (List Nat × BValue) →
    Option (List (List Nat × BValue) × { k : Nat // 0 < k })
  | [], _ => none
  | c :: rest, acc =>
    if c = 101 then some (acc, ⟨1, by omega⟩)
    else
      match bdecAux (c :: rest) with
      | none => none
      | some (kv, k1) =>
        match kv with
        | .bytes key =>
          match bdecAux ((c :: rest).drop k1.1) with
          | none => none
          | some (v, k2) =>
            match bdecDictAux (((c :: rest).drop k1.1).drop k2.1) (alSet acc key v) with
            | none => none
            | some (out, k3) => some (out, ⟨k1.1 + k2.1 + k3.1, by omega⟩)
        | _ => none
termination_by l _ => (l.length, 1)
decreasing_by
  all_goals simp_wf
  · exact Prod.Lex.right _ (by omega)
  · have := k1.2
    exact Prod.Lex.left _ _ (by omega)
  · have := k1.2
    have := k2.2
    exact Prod.Lex.left _ _ (by omega)
end

/-- `magnet.py` `_bdecode(data, i)`: decoded value and the index just past
it. -/
def mBdecode (data : List Nat) (i : Nat) : Option (BValue × Nat) :=
  (bdecAux (data.drop i)).map fun p => (p.1, i + p.2.1)

/-- Model of `bencodepy.decode`: one bencoded value consuming the whole
input (trailing bytes are a decoding error). -/
def pyBdecode (data : List Nat) : Option BValue :=
  match bdecAux data with
  | none => none
  | some (v, k) => if k.1 = data.length then some v else none

/-! ### Executable mirror of the decoder

`bdecAux` recurses by well-founded recursion, which the kernel does not
reduce; concrete runs therefore go through a fuel-indexed structural mirror,
proven equal to `bdecAux` whenever the fuel covers the recursion depth
(`2 * length + 1` always does). -/

mutual
/-- Fuel-indexed mirror of `bdecAux`. -/
def bdecAuxF : Nat → List Nat → Option (BValue × Nat)
  | 0, _ => none
  | _ + 1, [] => none
  | fuel + 1, c :: rest =>
    if c = 105 then
      match findByte 101 rest with
      | none => none
      | some j =>
        match pyIntParse (rest.take j) with
        | none => none
        | some n => some (.int n, j + 2)
    else if c = 108 then
      match bdecListAuxF fuel rest with
      | none => none
      | some (xs, k) => some (.list xs, k + 1)
    else if c = 100 then
      match bdecDictAuxF fuel rest [] with
      | none => none
      | some (kvs, k) => some (.dict kvs, k + 1)
    else if 48 ≤ c ∧ c ≤ 57 then
      match findByte 58 (c :: rest) with
      | none => none
      | some colon =>
        match pyIntParse ((c :: rest).take colon) with
        | none => none
        | some n =>
          some (.bytes (((c :: rest).drop (colon + 1)).take n.toNat),
                colon + 1 + n.toNat)
    else none

/-- Fuel-indexed mirror of `bdecListAux`. -/
def bdecListAuxF : Nat → List Nat → Option (List BValue × Nat)
  | 0, _ => none
  | _ + 1, [] => none
  | fuel + 1, c :: rest =>
    if c = 101 then some ([], 1)
    else
      match bdecAuxF fuel (c :: rest) with
      | none => none
      | some (v, k) =>
        match bdecListAuxF fuel ((c :: rest).drop k) with
        | none => none
        | some (vs, k2) => some (v :: vs, k + k2)

/-- Fuel-indexed mirror of `bdecDictAux`. -/
def bdecDictAuxF : Nat → List Nat → List (List Nat × BValue) →
    Option (List (List Nat × BValue) × Nat)
  | 0, _, _ => none
  | _ + 1, [], _ => none
  | fuel + 1, c :: rest, acc =>
    if c = 101 then some (acc, 1)
    else
      match bdecAuxF fuel (c :: rest) with
      | none => none
      | some (kv, k1) =>
        match kv with
        | .bytes key =>
          match bdecAuxF fuel ((c :: rest).drop k1) with
          | none => none
          | some (v, k2) =>
            match bdecDictAuxF fuel (((c :: rest).drop k1).drop k2) (alSet acc key v) with
            | none => none
            | some (out, k3) => some (out, k1 + k2 + k3)
        | _ => none
end

/-- Strip the positivity witness off a decoder result. -/
def unconsume {α : Type} (r : Option (α × { k : Nat // 0 < k })) : Option (α × Nat) :=
  r.map fun p => (p.1, p.2.1)

/-- With enough fuel, the three mirrors compute exactly the decoder. -/
theorem bdecAuxF_eq (fuel : Nat) :
    (∀ l : List Nat, 2 * l.length + 1 ≤ fuel → bdecAuxF fuel l = unconsume (bdecAux l))
    ∧ (∀ l : List Nat, 2 * l.length + 2 ≤ fuel →
        bdecListAuxF fuel l = unconsume (bdecListAux l))
    ∧ (∀ (l : List Nat) acc, 2 * l.length + 2 ≤ fuel →
        bdecDictAuxF fuel l acc = unconsume (bdecDictAux l acc)) := by
  induction fuel with
  | zero => refine ⟨?_, ?_, ?_⟩ <;> intro l <;> intros <;> omega
  | succ f ih =>
    obtain ⟨ihA, ihL, ihD⟩ := ih
    refine ⟨?_, ?_, ?_⟩
    · intro l hl
      match l with
      | [] => simp [bdecAuxF, bdecAux, unconsume]
      | c :: rest =>
        rw [bdecAuxF, bdecAux]
        simp only [List.length_cons] at hl
        by_cases h105 : c = 105
        · simp only [h105, if_true]
          cases hf : findByte 101 rest with
          | none => simp [hf, unconsume]
          | some j =>
            cases hp : pyIntParse (rest.take j) with
            | none => simp [hf, hp, unconsume]
            | some n => simp [hf, hp, unconsume]
        · simp only [h105, if_false]
          by_cases h108 : c = 108
          · simp only [h108, if_true]
            rw [ihL rest (by omega)]
            cases hx : bdecListAux rest with
            | none => simp [hx, unconsume]
            | some p => simp [hx, unconsume]
          · simp only [h108, if_false]
            by_cases h100 : c = 100
            · simp only [h100, if_true]
              rw [ihD rest [] (by omega)]
              cases hx : bdecDictAux rest [] with
              | none => simp [hx, unconsume]
              | some p => simp [hx, unconsume]
            · simp only [h100, if_false]
              by_cases hdig : 48 ≤ c ∧ c ≤ 57
              · simp only [hdig, if_true]
                cases hf : findByte 58 (c :: rest) with
                | none => simp [hf, unconsume]
                | some colon =>
                  cases hp : pyIntParse ((c :: rest).take colon) with
                  | none => simp [hf, hp, unconsume]
                  | some n => simp [hf, hp, unconsume]
              · simp only [hdig, if_false]
                simp [unconsume]
    · intro l hl
      match l with
      | [] => simp [bdecListAuxF, bdecListAux, unconsume]
      | c :: rest =>
        rw [bdecListAuxF, bdecListAux]
        simp only [List.length_cons] at hl
        by_cases h101 : c = 101
        · simp [h101, unconsume]
        · simp only [h101, if_false]
          rw [ihA (c :: rest) (by simp; omega)]
          cases hx : bdecAux (c :: rest) with
          | none => simp [hx, unconsume]
          | some p =>
            obtain ⟨v, k⟩ := p
            have hk := k.2
            simp only [hx, unconsume, Option.map_some']
            rw [ihL ((c :: rest).drop k.1) (by simp [List.length_drop]; omega)]
            cases hy : bdecListAux ((c :: rest).drop k.1) with
            | none => simp [hy, unconsume]
            | some q => simp [hy, unconsume]
    · intro l acc hl
      match l with
      | [] => simp [bdecDictAuxF, bdecDictAux, unconsume]
      | c :: rest =>
        rw [bdecDictAuxF, bdecDictAux]
        simp only [List.length_cons] at hl
        by_cases h101 : c = 101
        · simp [h101, unconsume]
        · simp only [h101, if_false]
          rw [ihA (c :: rest) (by simp; omega)]
          cases hx : bdecAux (c :: rest) with
          | none => simp [hx, unconsume]
          | some p =>
            obtain ⟨kv, k1⟩ := p
            have hk1 := k1.2
            simp only [hx, unconsume, Option.map_some']
            cases kv with
            | bytes key =>
              rw [ihA ((c :: rest).drop k1.1) (by simp [List.length_drop]; omega)]
              cases hy : bdecAux ((c :: rest).drop k1.1) with
              | none => simp [hy, unconsume]
              | some q =>
                obtain ⟨v, k2⟩ := q
                have hk2 := k2.2
                simp only [hy, unconsume, Option.map_some']
                rw [ihD (((c :: rest).drop k1.1).drop k2.1) (alSet acc key v)
                  (by simp [List.length_drop]; omega)]
                cases hz : bdecDictAux (((c :: rest).drop k1.1).drop k2.1) (alSet acc key v) with
                | none => simp [hz, unconsume]
                | some r => simp [hz, unconsume]
            | int n => simp [unconsume]
            | list xs => simp [unconsume]
            | dict kvs => simp [unconsume]

/-- Executable form of `pyBdecode`. -/
def pyBdecodeF (data : List Nat) : Option BValue :=
  match bdecAuxF (2 * data.length + 1) data with
  | none => none
  | some (v, k) => if k = data.length then some v else none

/-- `pyBdecode` computes as its executable form. -/
theorem pyBdecode_eq_F (data : List Nat) : pyBdecode data = pyBdecodeF data := by
  unfold pyBdecode pyBdecodeF
  rw [(bdecAuxF_eq (2 * data.length + 1)).1 data (by omega)]
  cases bdecAux data with
  | none => simp [unconsume]
  | some p => obtain ⟨v, k⟩ := p; simp [unconsume]

/-! ## `magnet.py` `_bencode` -/

/-- Key order used by the encoder: `items.sort(key=lambda kv: kv[0])`,
lexicographic byte order on the raw key. -/
def bytesLeB : List Nat → List Nat → Bool
  | [], _ => true
  | _ :: _, [] => false
  | a :: as0, b :: bs0 => if a < b then true else if b < a then false else bytesLeB as0 bs0

/-- Relation form of `bytesLeB`, keys of dict entries. -/
def keyLe (a b : List Nat × BValue) : Prop := bytesLeB a.1 b.1 = true

instance : DecidableRel keyLe := fun a b => by
  unfold keyLe; infer_instance

/-- The encoder's `items.sort(key=lambda kv: kv[0])`. -/
def sortKeys (kvs : List (List Nat × BValue)) : List (List Nat × BValue) :=
  List.insertionSort keyLe kvs

/-- `magnet.py` `_bencode` on the values of this model (byte-string keys;
the `str` branch of the source never receives our values). -/
def mBencode : BValue → List Nat
  | .int n => 105 :: intStr n ++ [101]
  | .bytes s => natDigits s.length ++ 58 :: s
  | .list xs => 108 :: (xs.attach.map fun x => mBencode x.1).flatten ++ [101]
  | .dict kvs =>
    100 :: ((sortKeys kvs).attach.map fun kv =>
      mBencode (.bytes kv.1.1) ++ mBencode kv.1.2).flatten ++ [101]
termination_by v => sizeOf v
decreasing_by
  · obtain ⟨x0, hx⟩ := x
    have := List.sizeOf_lt_of_mem hx
    simp only [BValue.list.sizeOf_spec]
    omega
  · obtain ⟨⟨k0, v0⟩, hkv⟩ := kv
    have h2 : (k0, v0) ∈ kvs := ((List.perm_insertionSort keyLe kvs).mem_iff).mp hkv
    have := List.sizeOf_lt_of_mem h2
    simp only [BValue.dict.sizeOf_spec, BValue.bytes.sizeOf_spec, Prod.mk.sizeOf_spec] at *
    omega
  · obtain ⟨⟨k0, v0⟩, hkv⟩ := kv
    have h2 : (k0, v0) ∈ kvs := ((List.perm_insertionSort keyLe kvs).mem_iff).mp hkv
    have := List.sizeOf_lt_of_mem h2
    simp only [BValue.dict.sizeOf_spec, Prod.mk.sizeOf_spec] at *
    omega

/-- Recursively sort every dict node by key.  Encoding sorts each dict it
meets, so decoding an encoding returns exactly `sortDicts` of the input. -/
def sortDicts : BValue → BValue
  | .int n => .int n
  | .bytes s => .bytes s
  | .list xs => .list (xs.attach.map fun x => sortDicts x.1)
  | .dict kvs => .dict (sortKeys (kvs.attach.map fun kv => (kv.1.1, sortDicts kv.1.2)))
termination_by v => sizeOf v
decreasing_by
  · obtain ⟨x0, hx⟩ := x
    have := List.sizeOf_lt_of_mem hx
    simp only [BValue.list.sizeOf_spec]
    omega
  · obtain ⟨⟨k0, v0⟩, hkv⟩ := kv
    have := List.sizeOf_lt_of_mem hkv
    simp only [BValue.dict.sizeOf_spec, Prod.mk.sizeOf_spec] at *
    omega

/-! ## Python `==` on decoded values

Python compares dicts as finite maps (same size, every key of the left dict
present on the right with `==` values); other shapes structurally. -/

mutual
/-- Python `==` between two decoded values. -/
def pyEq : BValue → BValue → Bool
  | .int a, .int b => a == b
  | .bytes a, .bytes b => a == b
  | .list a, .list b => pyEqList a b
  | .dict a, .dict b => (a.length == b.length) && pyEqEntries a b
  | _, _ => false

def pyEqList : List BValue → List BValue → Bool
  | [], [] => true
  | a :: as0, b :: bs0 => pyEq a b && pyEqList as0 bs0
  | _, _ => false

/-- Every binding of the first dict appears in the second with an equal
value. -/
def pyEqEntries : List (List Nat × BValue) → List (List Nat × BValue) → Bool
  | [], _ => true
  | (k, v) :: t, b =>
    (match alGet b k with
     | some w => pyEq v w
     | none => false) && pyEqEntries t b
end

/-! ## `bt_metadata.py` — tolerant bencode framing scan

`bencode_next_index(buf, i)` is again modelled on the suffix `buf.drop i`,
returning the consumed length (the source's `j - i`).  The source's
`buf.find(b"e", i + 1)` searches the tail; `buf.find(b":", i)` searches from
`i` itself.  The integer branch of the source has an explicit bounds check
(`end > n`), unlike `magnet._bdecode`. -/

mutual
/-- Length of the bencoded value at the front of the suffix, or `none`. -/
def bnAux : List Nat → Option { k : Nat // 0 < k }
  | [] => none
  | c :: rest =>
    if c = 105 then
      match findByte 101 rest with
      | none => none
      | some j => some ⟨j + 2, by omega⟩
    else if c = 108 ∨ c = 100 then
      match bnLoop rest with
      | none => none
      | some k => some ⟨k.1 + 1, by omega⟩
    else if 48 ≤ c ∧ c ≤ 57 then
      match findByte 58 (c :: rest) with
      | none => none
      | some colon =>
        match pyIntParse ((c :: rest).take colon) with
        | none => none
        | some ln =>
          -- `end = colon + 1 + ln; return None if end > n else end`; a
          -- digit-led slice never parses negative (`ln < 0` is unreachable
          -- and only closes the `Int → Nat` conversion)
          if ln < 0 then none
          else if colon + 1 + ln.toNat > (c :: rest).length then none
          else some ⟨colon + 1 + ln.toNat, by omega⟩
    else none
termination_by l => (l.length, 0)
decreasing_by
  simp_wf
  exact Prod.Lex.left _ _ (by omega)

/-- The `while True` element loop of the `l`/`d` branch. -/
def bnLoop : List Nat → Option { k : Nat // 0 < k }
  | [] => none
  | c :: rest =>
    if c = 101 then some ⟨1, by omega⟩
    else
      match bnAux (c :: rest) with
      | none => none
      | some k =>
        match bnLoop ((c :: rest).drop k.1) with
        | none => none
        | some k2 => some ⟨k.1 + k2.1, by omega⟩
termination_by l => (l.length, 1)
decreasing_by
  all_goals simp_wf
  · exact Prod.Lex.right _ (by omega)
  · have := k.2
    exact Prod.Lex.left _ _ (by omega)
end

/-- `bt_metadata.py` `bencode_next_index(buf, i)`: index just past the
bencoded value starting at `i`, or `none`. -/
def bencode_next_index (buf : List Nat) (i : Nat) : Option Nat :=
  (bnAux (buf.drop i)).map fun k => i + k.1

/-! ### Executable mirror of the framing scan (same device as for
`bdecAux`: fuel-indexed structural recursion, equal given enough fuel). -/

mutual
/-- Fuel-indexed mirror of `bnAux`. -/
def bnAuxF : Nat → List Nat → Option Nat
  | 0, _ => none
  | _ + 1, [] => none
  | fuel + 1, c :: rest =>
    if c = 105 then
      match findByte 101 rest with
      | none => none
      | some j => some (j + 2)
    else if c = 108 ∨ c = 100 then
      match bnLoopF fuel rest with
      | none => none
      | some k => some (k + 1)
    else if 48 ≤ c ∧ c ≤ 57 then
      match findByte 58 (c :: rest) with
      | none => none
      | some colon =>
        match pyIntParse ((c :: rest).take colon) with
        | none => none
        | some ln =>
          if ln < 0 then none
          else if colon + 1 + ln.toNat > (c :: rest).length then none
          else some (colon + 1 + ln.toNat)
    else none

/-- Fuel-indexed mirror of `bnLoop`. -/
def bnLoopF : Nat → List Nat → Option Nat
  | 0, _ => none
  | _ + 1, [] => none
  | fuel + 1, c :: rest =>
    if c = 101 then some 1
    else
      match bnAuxF fuel (c :: rest) with
      | none => none
      | some k =>
        match bnLoopF fuel ((c :: rest).drop k) with
        | none => none
        | some k2 => some (k + k2)
end

/-- With enough fuel the mirrors compute exactly the framing scan. -/
theorem bnAuxF_eq (fuel : Nat) :
    (∀ l : List Nat, 2 * l.length + 1 ≤ fuel →
        bnAuxF fuel l = (bnAux l).map Subtype.val)
    ∧ (∀ l : List Nat, 2 * l.length + 2 ≤ fuel →
        bnLoopF fuel l = (bnLoop l).map Subtype.val) := by
  induction fuel with
  | zero => refine ⟨?_, ?_⟩ <;> intro l <;> intros <;> omega
  | succ f ih =>
    obtain ⟨ihA, ihL⟩ := ih
    refine ⟨?_, ?_⟩
    · intro l hl
      match l with
      | [] => simp [bnAuxF, bnAux]
      | c :: rest =>
        rw [bnAuxF, bnAux]
        simp only [List.length_cons] at hl
        by_cases h105 : c = 105
        · simp only [h105, if_true]
          cases hf : findByte 101 rest with
          | none => simp [hf]
          | some j => simp [hf]
        · simp only [h105, if_false]
          by_cases hld : c = 108 ∨ c = 100
          · simp only [hld, if_true]
            rw [ihL rest (by omega)]
            cases hx : bnLoop rest with
            | none => simp [hx]
            | some k => simp [hx]
          · simp only [hld, if_false]
            by_cases hdig : 48 ≤ c ∧ c ≤ 57
            · simp only [hdig, if_true]
              cases hf : findByte 58 (c :: rest) with
              | none => simp [hf]
              | some colon =>
                cases hp : pyIntParse ((c :: rest).take colon) with
                | none => simp [hf, hp]
                | some ln =>
                  by_cases hneg : ln < 0
                  · simp [hf, hp, hneg]
                  · simp only [hf, hp, hneg, if_false]
                    by_cases hc : rest.length + 1 < colon + 1 + ln.toNat
                    · simp only [List.length_cons, if_pos hc]
                      rfl
                    · simp only [List.length_cons, if_neg hc]
                      rfl
            · simp [hdig]
    · intro l hl
      match l with
      | [] => simp [bnLoopF, bnLoop]
      | c :: rest =>
        rw [bnLoopF, bnLoop]
        simp only [List.length_cons] at hl
        by_cases h101 : c = 101
        · simp [h101]
        · simp only [h101, if_false]
          rw [ihA (c :: rest) (by simp; omega)]
          cases hx : bnAux (c :: rest) with
          | none => simp [hx]
          | some k =>
            have hk := k.2
            simp only [hx, Option.map_some']
            rw [ihL ((c :: rest).drop k.1) (by simp [List.length_drop]; omega)]
            cases hy : bnLoop ((c :: rest).drop k.1) with
            | none => simp [hy]
            | some k2 => simp [hy]

/-- Executable form of `bencode_next_index`. -/
def bencode_next_indexF (buf : List Nat) (i : Nat) : Option Nat :=
  (bnAuxF (2 * (buf.drop i).length + 1) (buf.drop i)).map fun k => i + k

/-- `bencode_next_index` computes as its executable form. -/
theorem bencode_next_index_eq_F (buf : List Nat) (i : Nat) :
    bencode_next_index buf i = bencode_next_indexF buf i := by
  unfold bencode_next_index bencode_next_indexF
  rw [(bnAuxF_eq (2 * (buf.drop i).length + 1)).1 (buf.drop i) (by omega)]
  cases bnAux (buf.drop i) with
  | none => simp
  | some k => simp

/-! ### Bounds of the framing scan (claim C10) -/

/-- A found byte lies inside the buffer. -/
theorem findByte_lt {c : Nat} : ∀ {l : List Nat} {j : Nat},
    findByte c l = some j → j < l.length := by
  intro l
  induction l with
  | nil => intro j h; simp [findByte] at h
  | cons x t ih =>
    intro j h
    rw [findByte] at h
    split at h
    · simp only [Option.some_inj] at h
      simp only [List.length_cons]
      omega
    · cases hf : findByte c t with
      | none => rw [hf] at h; simp at h
      | some j0 =>
        rw [hf] at h
        simp only [Option.map_some', Option.some_inj] at h
        have := ih hf
        simp only [List.length_cons]
        omega

/-- Bounds of the scan mirror: a successful scan consumes at least one byte
and at most the whole suffix. -/
theorem bnAuxF_bounds (fuel : Nat) :
    (∀ l k, bnAuxF fuel l = some k → 1 ≤ k ∧ k ≤ l.length)
    ∧ (∀ l k, bnLoopF fuel l = some k → 1 ≤ k ∧ k ≤ l.length) := by
  induction fuel with
  | zero =>
    constructor <;> intro l k hk <;> simp [bnAuxF, bnLoopF] at hk
  | succ f ih =>
    obtain ⟨ihA, ihL⟩ := ih
    constructor
    · intro l k hk
      match l with
      | [] => simp [bnAuxF] at hk
      | c :: rest =>
        rw [bnAuxF] at hk
        split at hk
        · split at hk
          · simp at hk
          · rename_i j hf
            simp only [Option.some_inj] at hk
            have := findByte_lt hf
            simp only [List.length_cons]
            omega
        · split at hk
          · split at hk
            · simp at hk
            · rename_i k0 hx
              simp only [Option.some_inj] at hk
              have := ihL rest k0 hx
              simp only [List.length_cons]
              omega
          · split at hk
            · split at hk
              · simp at hk
              · split at hk
                · simp at hk
                · split at hk
                  · simp at hk
                  · split at hk
                    · simp at hk
                    · rename_i hbig
                      simp only [Option.some_inj] at hk
                      simp only [List.length_cons] at hbig ⊢
                      omega
            · simp at hk
    · intro l k hk
      match l with
      | [] => simp [bnLoopF] at hk
      | c :: rest =>
        rw [bnLoopF] at hk
        split at hk
        · simp only [Option.some_inj] at hk
          simp only [List.length_cons]
          omega
        · split at hk
          · simp at hk
          · rename_i k1 hx
            split at hk
            · simp at hk
            · rename_i k2 hy
              simp only [Option.some_inj] at hk
              have h1 := ihA (c :: rest) k1 hx
              have h2 := ihL ((c :: rest).drop k1) k2 hy
              simp only [List.length_drop, List.length_cons] at *
              omega

/-- C10: `bencode_next_index(buf, i)` terminates on every byte string and
every starting index (it is a total function of this development, built on
scans whose every step consumes at least one byte), and whenever it returns
an index `j` rather than `None`, `i < j ≤ len(buf)` holds, so the list/dict
loop and the recursion strictly advance. -/
theorem bencode_next_index_bounds (buf : List Nat) (i j : Nat)
    (h : bencode_next_index buf i = some j) : i < j ∧ j ≤ buf.length := by
  rw [bencode_next_index_eq_F] at h
  unfold bencode_next_indexF at h
  cases hx : bnAuxF (2 * (buf.drop i).length + 1) (buf.drop i) with
  | none => rw [hx] at h; simp at h
  | some k =>
    rw [hx] at h
    simp only [Option.map_some', Option.some_inj] at h
    have hb := (bnAuxF_bounds (2 * (buf.drop i).length + 1)).1 _ k hx
    simp only [List.length_drop] at hb
    omega

/-- Witness for C10 at the concrete buffer `b"i3e"`, start index 0. -/
theorem bencode_next_index_bounds_witness :
    0 < 3 ∧ 3 ≤ ([105, 51, 101] : List Nat).length :=
  bencode_next_index_bounds [105, 51, 101] 0 3
    (by rw [bencode_next_index_eq_F]; rfl)

/-! ## `bt_metadata.py` — handshake checks and metadata download -/

/-- The 19 ASCII bytes of `b"BitTorrent protocol"`. -/
def btProtocolBytes : List Nat :=
  [66, 105, 116, 84, 111, 114, 114, 101, 110, 116, 32,
   112, 114, 111, 116, 111, 99, 111, 108]

/-- `check_handshake(packet, self_infohash)`. -/
def check_handshake (packet selfInfohash : List Nat) : Bool :=
  if packet.length < 1 then false
  else if packet.headD 0 ≠ 19 then false          -- pstrlen != len(BT_PROTOCOL)
  else if packet.length < 1 + 19 + 8 + 20 then false
  else if (packet.drop 1).take 19 ≠ btProtocolBytes then false
  else ((packet.drop 28).take 20) == selfInfohash

/-- Key `b"m"`. -/
def mKeyBytes : List Nat := [109]

/-- Key `b"ut_metadata"`. -/
def utKeyBytes : List Nat := [117, 116, 95, 109, 101, 116, 97, 100, 97, 116, 97]

/-- Key `b"metadata_size"`. -/
def sizeKeyBytes : List Nat :=
  [109, 101, 116, 97, 100, 97, 116, 97, 95, 115, 105, 122, 101]

/-- Key `b"msg_type"`. -/
def msgTypeKeyBytes : List Nat := [109, 115, 103, 95, 116, 121, 112, 101]

/-- Key `b"piece"`. -/
def pieceKeyBytes : List Nat := [112, 105, 101, 99, 101]

/-- `parse_ext_handshake(packet)`: `(ut_metadata, metadata_size)` when the
packet is a framed extension handshake whose payload decodes to a dict `d`
with `d[b"m"]` a dict holding an integer `ut_metadata` and with an integer
`d[b"metadata_size"] > 0`; `(None, None)` otherwise. -/
def parse_ext_handshake (packet : List Nat) : Option (Int × Int) :=
  if packet.length < 6 then none
  else
    let msgLen := beU32 (packet.take 4)
    if msgLen ≤ 2 then none
    else if packet.length < 4 + msgLen then none
    else if packet.getD 4 0 ≠ 20 then none        -- BT_MSG_ID
    else if packet.getD 5 0 ≠ 0 then none         -- EXT_HANDSHAKE_ID
    else
      match pyBdecode ((packet.drop 6).take (4 + msgLen - 6)) with
      | some (.dict d) =>
        match alGet d mKeyBytes with
        | some (.dict m) =>
          match alGet m utKeyBytes, alGet d sizeKeyBytes with
          | some (.int ut), some (.int size) =>
            if size > 0 then some (ut, size) else none
          | _, _ => none
        | _ => none
      | _ => none

/-- `split_ut_metadata_message(buf)`: find the first `d`, scan the framed
dict with `bencode_next_index`, decode it, return it with the tail. -/
def split_ut_metadata_message (buf : List Nat) :
    Option (List (List Nat × BValue) × List Nat) :=
  match findByte 100 buf with
  | none => none
  | some start =>
    match bencode_next_index buf start with
    | none => none
    | some endi =>
      match pyBdecode ((buf.drop start).take (endi - start)) with
      | some (.dict h) => some (h, buf.drop endi)
      | _ => none

/-- One iteration of the piece loop of `download_metadata` on the bytes
`blob` that `recvall` returned for piece number `piece`: the payload
appended to `metadata_parts`, or `none` when the iteration `continue`s. -/
def capturePiece (blob : List Nat) (piece : Nat) : Option (List Nat) :=
  if blob = [] then none
  else
    match findSub [101, 101] blob with            -- marker b"ee"
    | some idx => some (blob.drop (idx + 2))
    | none =>
      match split_ut_metadata_message blob with
      | none => none
      | some (header, payload) =>
        match alGet header msgTypeKeyBytes with
        | some (.int 1) =>
          match alGet header pieceKeyBytes with
          | some (.int p) => if p = (piece : Int) then some payload else none
          | _ => none
        | _ => none

/-- The whole piece loop: `blobs` is the oracle of `recvall` results, one
per requested piece. -/
def capturePieces (blobs : List (List Nat)) (pieces : Nat) : List (List Nat) :=
  (List.range pieces).filterMap fun i => capturePiece (blobs.getD i []) i

/-- The ASCII bytes of `b"d4:info"`. -/
def d4infoBytes : List Nat := [100, 52, 58, 105, 110, 102, 111]

/-- Observable outcome of `download_metadata`: the returned status string,
the `torrent_bytes` argument of each `storage_info_fn` invocation, and (as a
ghost field) the reassembled metadata at the SHA-1 check (`none` when the
run exits before that check). -/
structure FetchOut where
  status : String
  calls : List (List Nat)
  meta : Option (List Nat)
deriving DecidableEq

/-- `download_metadata` as a function of the network oracle: `hsResp` is the
68-byte handshake read, `lp` the 4-byte length prefix read, `extBody` the
extension-handshake body read, `blobs` the per-piece `recvall` results, and
`sha1fn` the 20-byte SHA-1 digest function.  `pieces` is computed over `Int`
(`ceil(size / 16384.0)` is exact for every size that can pass the
`pieces ≤ 4096` gate).  The `info` record handed to `storage_info_fn` is
elided: after `bdecode(metadata)` succeeds its construction is total and no
claim concerns its fields; the `torrent_bytes` argument is recorded. -/
def download_metadata (sha1fn : List Nat → List Nat)
    (infohash hsResp lp extBody : List Nat) (blobs : List (List Nat)) : FetchOut :=
  if ¬ check_handshake hsResp infohash then ⟨"handshake_fail", [], none⟩
  else if lp.length ≠ 4 then ⟨"ext_fail", [], none⟩
  else
    let msgLen := beU32 lp
    if msgLen = 0 ∨ msgLen > 2000000 then ⟨"ext_fail", [], none⟩
    else if extBody.length ≠ msgLen then ⟨"ext_fail", [], none⟩
    else
      match parse_ext_handshake (lp ++ extBody) with
      | none => ⟨"ext_fail", [], none⟩
      | some (_ut, size) =>
        let pieces : Int := (size + 16383) / 16384   -- ceil(size/16384), size > 0
        if pieces ≤ 0 ∨ pieces > 4096 then ⟨"bad_pieces", [], none⟩
        else
          let parts := capturePieces blobs pieces.toNat
          if parts = [] then ⟨"no_pieces", [], none⟩
          else
            let metadata := parts.flatten
            if hexUpper (sha1fn metadata) ≠ hexUpper infohash then
              ⟨"sha1_mismatch", [], some metadata⟩
            else
              match pyBdecode metadata with
              | none => ⟨"exception", [], some metadata⟩
              | some _ => ⟨"ok", [d4infoBytes ++ metadata ++ [101]], some metadata⟩

/-! ## `dht.py` -/

/-- `get_neighbor(target, nid, end=10)`. -/
def get_neighbor (target nid : List Nat) (endLen : Nat := 10) : List Nat :=
  target.take endLen ++ nid.drop endLen

/-- Outgoing `find_node` query (`send_find_node`), with the random transaction
id and target passed in as oracles. -/
structure FindNodeMsg where
  t : List Nat
  y : String
  q : String
  aId : List Nat
  aTarget : List Nat
deriving DecidableEq

/-- The `a.id` chosen by `send_find_node`: `get_neighbor(nid, self.nid) if nid
else self.nid` (an empty byte string is falsy in Python). -/
def send_find_node_id (selfNid : List Nat) (nid : Option (List Nat)) : List Nat :=
  match nid with
  | some n => if n = [] then selfNid else get_neighbor n selfNid
  | none => selfNid

/-- `send_find_node(address, nid)`: the KRPC message sent. -/
def send_find_node (selfNid tid target : List Nat) (nid : Option (List Nat)) :
    FindNodeMsg :=
  ⟨tid, "q", "find_node", send_find_node_id selfNid nid, target⟩

/-- An inbound `announce_peer` query after `to_str`: the fields
`on_announce_peer_request` and `ok` read, each `none` when absent
(`KeyError`).  `info_hash` and `token` are byte strings in every run the
claims concern; a non-byte value takes the same no-log path (exception or
trivially failing comparison). -/
structure AnnounceMsg where
  t : Option BValue
  aId : Option BValue
  infoHash : Option (List Nat)
  token : Option (List Nat)
  impliedPort : Option BValue
  port : Option BValue

/-- A KRPC reply sent back by `ok`. -/
structure KReply where
  t : BValue
  y : String
  rId : List Nat

/-- `on_announce_peer_request(msg, address)` followed by its `finally` call
of `ok`: the list of `master.log_infohash(infohash, addr)` invocations in
order, and the replies sent.  Any exception inside the `try` is swallowed;
`ok` replies only when `t` and `a.id` exist and `a.id` is a byte string
(`get_neighbor` on any other shape raises out of the `KeyError` handler). -/
def on_announce_peer_request (tokenLength : Nat) (selfNid : List Nat)
    (msg : AnnounceMsg) (addr : String × Int) :
    List (List Nat × (String × Int)) × List KReply :=
  let logs :=
    match msg.infoHash, msg.token with
    | some ih, some tok =>
      if ih.take tokenLength ≠ tok then []
      else
        -- the TCP port from `a.port`: absent (KeyError) and non-int
        -- (TypeError on the comparison) both abort with no log
        let portPath : Option Int :=
          match msg.port with
          | some (.int p) => if p < 1 ∨ p > 65535 then none else some p
          | _ => none
        let chosen : Option Int :=
          match msg.impliedPort with
          | none => portPath
          | some (.int n) => if n = 0 then portPath else some addr.2
          | some _ => some addr.2                 -- any non-int value is `!= 0`
        match chosen with
        | none => []
        | some p =>
          if addr.2 ≠ p then [(ih, (addr.1, p)), (ih, (addr.1, addr.2))]
          else [(ih, (addr.1, p))]
    | _, _ => []
  let replies :=
    match msg.t, msg.aId with
    | some tv, some (.bytes nid) => [⟨tv, "r", get_neighbor nid selfNid⟩]
    | _, _ => []
  (logs, replies)

/-- `DHTBootstrapStore`: the in-memory `(ip, port) -> last_ok` map as an
association list. -/
structure BootstrapStore where
  peers : List ((String × Int) × Int)

/-- Descending sort by `last_ok` (`sort(key=lambda kv: kv[1], reverse=True)`). -/
def sortTsDesc (l : List ((String × Int) × Int)) : List ((String × Int) × Int) :=
  List.insertionSort (fun a b => b.2 ≤ a.2) l

/-- `sample_previous(k)`: `pool` is the top `max(4k, k)` most-recent
addresses; `pick` stands for `random.sample`. -/
def sample_previous (pick : List (String × Int) → Nat → List (String × Int))
    (st : BootstrapStore) (k : Nat) : List (String × Int) :=
  if st.peers = [] then []
  else
    let items := sortTsDesc st.peers
    let pool := (items.take (max (k * 4) k)).map Prod.fst
    let n := min k pool.length
    if pool.length > n then pick pool n else pool

/-! ## `master.py` -/

/-- `MetadataPeerStore`: the `_peers` list of `(ip, port, last_ok)` triples
(kept most-recent-first by `mark_ok`). -/
structure PeerStore where
  peers : List (String × Int × Int)

/-- `MetadataPeerStore.sample(k)`: `pool` is a copy of the whole `_peers`
list; `pick` stands for `random.sample`. -/
def mdSample (pick : List (String × Int × Int) → Nat → List (String × Int × Int))
    (st : PeerStore) (k : Nat) : List (String × Int) :=
  if st.peers = [] then []
  else
    let n := min k st.peers.length
    let pool := st.peers
    let picks := if pool.length > n then pick pool n else pool
    picks.map fun p => (p.1, p.2.1)

/-- Descending sort of the triples by `last_ok`, the order `_peers` is kept
in. -/
def sortTsDescT (l : List (String × Int × Int)) : List (String × Int × Int) :=
  List.insertionSort (fun a b => b.2.2 ≤ a.2.2) l

/-- The mutable state of `Master` that the claims touch: the `seen` set of
`(hex_upper(infohash), ip, port)` triples, the bad-peer map
`address -> expiry`, the failure counters `address -> (count, window_end)`,
and the work queue. -/
structure MasterState where
  seen : Finset (List Nat × String × Int)
  bad : List ((String × Int) × Int)
  failCounts : List ((String × Int) × (Nat × Int))
  queue : List ((String × Int) × List Nat)

/-- The empty startup state. -/
def masterInit : MasterState := ⟨∅, [], [], []⟩

/-- `_mark_bad(address)`: `bad[address] = now + bad_ttl` (`bad_ttl = 300`). -/
def markBad (now : Int) (addr : String × Int) (st : MasterState) : MasterState :=
  ⟨st.seen, alSet st.bad addr (now + 300), st.failCounts, st.queue⟩

/-- `_is_bad(address)`: `if not until` treats a stored expiry of exactly 0 as
absent (Python float falsiness) without deleting it; an expired entry is
deleted lazily. -/
def isBad (now : Int) (addr : String × Int) (st : MasterState) : Bool × MasterState :=
  match alGet st.bad addr with
  | none => (false, st)
  | some until0 =>
    if until0 = 0 then (false, st)
    else if until0 ≤ now then
      (false, ⟨st.seen, alRemove st.bad addr, st.failCounts, st.queue⟩)
    else (true, st)

/-- `_record_failure(address)`: bump the count inside the current window
(`fail_window = 180`), resetting it when the window has expired; at
`fail_threshold = 3` the address is marked bad. -/
def recordFailure (now : Int) (addr : String × Int) (st : MasterState) : MasterState :=
  let cu := (alGet st.failCounts addr).getD (0, now + 180)
  let cu := if cu.2 ≤ now then ((0 : Nat), now + 180) else cu
  let count := cu.1 + 1
  let st1 : MasterState :=
    ⟨st.seen, st.bad, alSet st.failCounts addr (count, cu.2), st.queue⟩
  if count ≥ 3 then markBad now addr st1 else st1

/-- `_enqueue_once(infohash, address)`.  The Python `if not address` guard is
omitted: the callers only pass 2-tuples, which are always truthy. -/
def enqueueOnce (now : Int) (infohash : List Nat) (addr : String × Int)
    (st : MasterState) : Bool × MasterState :=
  if infohash.length ≠ 20 then (false, st)
  else
    let b := isBad now addr st
    if b.1 then (false, b.2)
    else
      let st1 := b.2
      let key := (hexUpper infohash, addr.1, addr.2)
      if key ∈ st1.seen then (false, st1)
      else
        let seen1 := insert key st1.seen
        let seen2 := if seen1.card > 60000 then (∅ : Finset _) else seen1
        (true, ⟨seen2, st1.bad, st1.failCounts, st1.queue ++ [(addr, infohash)]⟩)

/-! ## Claim C3 — `_enqueue_once` dedup and the bound on `seen` -/

/-- The lazy bad-map lookup never touches the `seen` set. -/
theorem isBad_seen (now : Int) (addr : String × Int) (st : MasterState) :
    (isBad now addr st).2.seen = st.seen := by
  unfold isBad
  cases alGet st.bad addr with
  | none => rfl
  | some u =>
    simp only []
    split
    · rfl
    · split <;> rfl

/-- C3: `_enqueue_once(infohash, address)` returns true at most once per key
`(uppercase-hex infohash, ip, port)` between flushes of `seen` (a key already
in `seen` is refused), each true-returning call inserts exactly that key
(followed by a full clear exactly when the insertion pushed `|seen|` above
60000), and `|seen| ≤ 60000` is preserved by every call. -/
theorem enqueue_once_seen_invariant (now : Int) (ih : List Nat)
    (addr : String × Int) (st : MasterState) :
    ((hexUpper ih, addr.1, addr.2) ∈ st.seen → (enqueueOnce now ih addr st).1 = false)
    ∧ ((enqueueOnce now ih addr st).1 = true →
        (hexUpper ih, addr.1, addr.2) ∉ st.seen ∧
        (enqueueOnce now ih addr st).2.seen =
          (if (insert (hexUpper ih, addr.1, addr.2) st.seen).card > 60000 then ∅
           else insert (hexUpper ih, addr.1, addr.2) st.seen))
    ∧ (st.seen.card ≤ 60000 → (enqueueOnce now ih addr st).2.seen.card ≤ 60000) := by
  have hseen := isBad_seen now addr st
  unfold enqueueOnce
  by_cases hlen : ih.length ≠ 20
  · rw [if_pos hlen]
    exact ⟨fun _ => rfl, fun h => absurd h (by simp), fun h => h⟩
  · rw [if_neg hlen]
    by_cases hbad : (isBad now addr st).1 = true
    · rw [if_pos hbad]
      exact ⟨fun _ => rfl, fun h => absurd h (by simp),
        fun h => by simpa [hseen] using h⟩
    · rw [if_neg hbad]
      by_cases hmem : (hexUpper ih, addr.1, addr.2) ∈ (isBad now addr st).2.seen
      · rw [if_pos hmem]
        rw [hseen] at hmem
        exact ⟨fun _ => rfl, fun h => absurd h (by simp),
          fun h => by simpa [hseen] using h⟩
      · rw [if_neg hmem]
        rw [hseen] at hmem
        refine ⟨fun h => absurd h hmem, fun _ => ⟨hmem, ?_⟩, fun h => ?_⟩
        · show (if (insert (hexUpper ih, addr.1, addr.2) (isBad now addr st).2.seen).card > 60000
              then (∅ : Finset (List Nat × String × Int))
              else insert (hexUpper ih, addr.1, addr.2) (isBad now addr st).2.seen) = _
          rw [hseen]
        · show (if (insert (hexUpper ih, addr.1, addr.2) (isBad now addr st).2.seen).card > 60000
              then (∅ : Finset (List Nat × String × Int))
              else insert (hexUpper ih, addr.1, addr.2) (isBad now addr st).2.seen).card ≤ 60000
          rw [hseen]
          split
          · simp
          · rename_i hle
            have := Finset.card_insert_le (hexUpper ih, addr.1, addr.2) st.seen
            omega

/-- Witness for C3: the invariant applied on the empty startup state. -/
theorem enqueue_once_seen_invariant_witness :
    (enqueueOnce 0 (List.replicate 20 0) ("1.2.3.4", 6881) masterInit).2.seen.card ≤ 60000 :=
  (enqueue_once_seen_invariant 0 (List.replicate 20 0) ("1.2.3.4", 6881) masterInit).2.2
    (by simp [masterInit])

/-! ## Claim C5 — failure window and bad-peer quarantine -/

/-- Setting a key makes it readable. -/
theorem alGet_alSet_self {κ ν : Type} [DecidableEq κ] (l : List (κ × ν)) (k : κ) (v : ν) :
    alGet (alSet l k v) k = some v := by
  induction l with
  | nil => simp [alSet, alGet]
  | cons p t ih =>
    obtain ⟨k0, v0⟩ := p
    by_cases hk : k0 = k
    · simp [alSet, alGet, hk]
    · simp [alSet, alGet, hk, ih]

/-- Removing the only binding of a key makes it unreadable. -/
theorem alGet_alRemove_self {κ ν : Type} [DecidableEq κ] (l : List (κ × ν)) (k : κ)
    (h : (l.map Prod.fst).Nodup) : alGet (alRemove l k) k = none := by
  induction l with
  | nil => simp [alRemove, alGet]
  | cons p t ih =>
    obtain ⟨k0, v0⟩ := p
    simp only [List.map_cons, List.nodup_cons] at h
    by_cases hk : k0 = k
    · simp only [alRemove, if_pos hk]
      subst hk
      cases hg : alGet t k0 with
      | none => rfl
      | some w =>
        exfalso
        apply h.1
        clear ih h
        induction t with
        | nil => simp [alGet] at hg
        | cons q s ihs =>
          obtain ⟨k1, v1⟩ := q
          rw [alGet] at hg
          by_cases h1 : k1 = k0
          · simp [h1]
          · simp only [h1, if_false] at hg
            simp [ihs hg]
    · simp only [alRemove, if_neg hk]
      rw [alGet, if_neg hk]
      exact ih h.2

/-- C5 counterexample: `timeout`-class failures against the same address at
times 179, 190 and 200 all fall inside one 180-second sliding window, yet
the code (whose window is anchored at the first failure after expiry, here
resetting at t=190) never marks the address bad, and the next
`_enqueue_once` at t=201 still returns true. -/
theorem record_failure_sliding_window_cex :
    ((200 : Int) - 179 ≤ 180)
    ∧ alGet (recordFailure 200 ("10.0.0.1", 6881) (recordFailure 190 ("10.0.0.1", 6881)
        (recordFailure 179 ("10.0.0.1", 6881)
          (recordFailure 0 ("10.0.0.1", 6881) masterInit)))).bad ("10.0.0.1", 6881) = none
    ∧ (enqueueOnce 201 (List.replicate 20 0) ("10.0.0.1", 6881)
        (recordFailure 200 ("10.0.0.1", 6881) (recordFailure 190 ("10.0.0.1", 6881)
          (recordFailure 179 ("10.0.0.1", 6881)
            (recordFailure 0 ("10.0.0.1", 6881) masterInit))))).1 = true := by
  refine ⟨by norm_num, ?_, ?_⟩ <;> decide

/-- C5 amended: the failure window is anchored, not sliding — the counter
resets exactly when a failure is recorded after the current window (opened
at the window's first counted failure) has expired; when the count inside
one such window reaches 3, the address maps to expiry `now + 300` in `bad`;
`_enqueue_once` refuses the address strictly before that expiry; from the
expiry on, the entry is removed lazily by the lookup and the enqueue is
permitted again. -/
theorem record_failure_anchored_window (now : Int) (addr : String × Int)
    (st : MasterState) :
    ((alGet (recordFailure now addr st).failCounts addr =
        some ((if ((alGet st.failCounts addr).getD (0, now + 180)).2 ≤ now then 0
               else ((alGet st.failCounts addr).getD (0, now + 180)).1) + 1,
              if ((alGet st.failCounts addr).getD (0, now + 180)).2 ≤ now then now + 180
              else ((alGet st.failCounts addr).getD (0, now + 180)).2))
      ∧ ((if ((alGet st.failCounts addr).getD (0, now + 180)).2 ≤ now then 0
          else ((alGet st.failCounts addr).getD (0, now + 180)).1) + 1 ≥ 3 →
          alGet (recordFailure now addr st).bad addr = some (now + 300))
      ∧ ((if ((alGet st.failCounts addr).getD (0, now + 180)).2 ≤ now then 0
          else ((alGet st.failCounts addr).getD (0, now + 180)).1) + 1 < 3 →
          (recordFailure now addr st).bad = st.bad))
    ∧ (∀ u, alGet st.bad addr = some u → u ≠ 0 → now < u →
        ∀ ih, (enqueueOnce now ih addr st).1 = false)
    ∧ (∀ u, alGet st.bad addr = some u → u ≠ 0 → u ≤ now →
        (st.bad.map Prod.fst).Nodup →
        ∀ ih, ih.length = 20 → (hexUpper ih, addr.1, addr.2) ∉ st.seen →
          (enqueueOnce now ih addr st).1 = true ∧
          alGet (enqueueOnce now ih addr st).2.bad addr = none) := by
  refine ⟨?_, ?_, ?_⟩
  · unfold recordFailure markBad
    by_cases hw : ((alGet st.failCounts addr).getD (0, now + 180)).2 ≤ now
    · simp only [hw, if_true, if_pos hw]
      refine ⟨?_, ?_, ?_⟩
      · split <;> exact alGet_alSet_self _ _ _
      · intro h3
        rw [if_pos (by omega : 0 + 1 ≥ 3)]
        exact alGet_alSet_self _ _ _
      · intro h3
        rw [if_neg (by omega : ¬ 0 + 1 ≥ 3)]
    · simp only [hw, if_false, if_neg hw]
      refine ⟨?_, ?_, ?_⟩
      · split <;> exact alGet_alSet_self _ _ _
      · intro h3
        rw [if_pos (by omega : ((alGet st.failCounts addr).getD (0, now + 180)).1 + 1 ≥ 3)]
        exact alGet_alSet_self _ _ _
      · intro h3
        rw [if_neg (by omega : ¬ ((alGet st.failCounts addr).getD (0, now + 180)).1 + 1 ≥ 3)]
  · intro u hu hu0 hnow ih
    unfold enqueueOnce
    by_cases hlen : ih.length ≠ 20
    · rw [if_pos hlen]
    · rw [if_neg hlen]
      have hbad : (isBad now addr st).1 = true := by
        unfold isBad
        rw [hu]
        simp only [if_neg hu0, if_neg (by omega : ¬ u ≤ now)]
      rw [if_pos hbad]
  · intro u hu hu0 hexp hnodup ih hlen hmem
    have hbadres : isBad now addr st =
        (false, ⟨st.seen, alRemove st.bad addr, st.failCounts, st.queue⟩) := by
      unfold isBad
      rw [hu]
      simp only [if_neg hu0, if_pos hexp]
    unfold enqueueOnce
    rw [if_neg (by omega : ¬ ih.length ≠ 20), hbadres]
    simp only [if_neg hmem]
    exact ⟨rfl, alGet_alRemove_self st.bad addr hnodup⟩

/-- Witness for C5's amended statement: a concrete bad entry with expiry 400
blocks an enqueue at t=399. -/
theorem record_failure_anchored_window_witness :
    (enqueueOnce 399 (List.replicate 20 0) ("9.9.9.9", 1)
      ⟨∅, [(("9.9.9.9", 1), 400)], [], []⟩).1 = false :=
  (record_failure_anchored_window 399 ("9.9.9.9", 1)
      ⟨∅, [(("9.9.9.9", 1), 400)], [], []⟩).2.1 400 (by decide) (by decide) (by decide)
    (List.replicate 20 0)

/-! ## Claim C4 — the id presented in outbound `find_node` -/

/-- C4 counterexample: with `self.nid` all zeros and the peer id all ones,
the id sent by `send_find_node` is not `P.nid[:2] + self.nid[2:]` (the
claim's formula with `token_length = 2`): `get_neighbor` is called with its
default prefix length 10, which `send_find_node` never overrides. -/
theorem send_find_node_id_cex :
    (send_find_node (List.replicate 20 0) [7, 7] (List.replicate 20 9)
        (some (List.replicate 20 1))).aId ≠
      (List.replicate 20 1).take 2 ++ (List.replicate 20 0).drop 2
    ∧ (send_find_node (List.replicate 20 0) [7, 7] (List.replicate 20 9)
        (some (List.replicate 20 1))).aId =
      (List.replicate 20 1).take 10 ++ (List.replicate 20 0).drop 10 := by
  refine ⟨?_, ?_⟩ <;> decide

/-- C4 amended: for every outbound `find_node` query sent to a peer whose
(non-empty) node id is known, the id field of the query arguments equals
`P.nid[:10] + self.nid[10:]` — the prefix length is `get_neighbor`'s default
10, independent of `token_length`. -/
theorem send_find_node_id_prefix10 (selfNid tid target n : List Nat) (hn : n ≠ []) :
    (send_find_node selfNid tid target (some n)).aId =
      n.take 10 ++ selfNid.drop 10 := by
  simp [send_find_node, send_find_node_id, get_neighbor, hn]

/-- Witness for C4's amended statement on concrete ids. -/
theorem send_find_node_id_prefix10_witness :
    (send_find_node (List.replicate 20 3) [1, 2] (List.replicate 20 4)
        (some (List.replicate 20 5))).aId =
      (List.replicate 20 5).take 10 ++ (List.replicate 20 3).drop 10 :=
  send_find_node_id_prefix10 (List.replicate 20 3) [1, 2] (List.replicate 20 4)
    (List.replicate 20 5) (by decide)

/-! ## Claim C2 — `announce_peer` handling -/

/-- C2: for an inbound `announce_peer` whose token equals
`infohash[:token_length]`, the TCP port is the announced `a.port` unless
`implied_port` is present and non-zero (then it is the UDP source port), and
`log_infohash` runs for the chosen port and — exactly when it differs — also
for the UDP source port; on a token mismatch nothing is logged but the
`{t, y:"r", r:{id: neighbor-of(peer.id)}}` reply is still sent (given the
`t` and `a.id` fields the reply echoes). -/
theorem announce_peer_ports_and_token (tokenLength : Nat) (selfNid ih tok : List Nat)
    (msg : AnnounceMsg) (addr : String × Int)
    (hih : msg.infoHash = some ih) (htok : msg.token = some tok) :
    (tok = ih.take tokenLength →
      ((∀ v, msg.impliedPort = some v → v ≠ BValue.int 0 →
          (on_announce_peer_request tokenLength selfNid msg addr).1 =
            [(ih, (addr.1, addr.2))])
       ∧ (∀ p : Int, (msg.impliedPort = none ∨ msg.impliedPort = some (BValue.int 0)) →
            msg.port = some (BValue.int p) → 1 ≤ p → p ≤ 65535 →
            (on_announce_peer_request tokenLength selfNid msg addr).1 =
              if addr.2 ≠ p then [(ih, (addr.1, p)), (ih, (addr.1, addr.2))]
              else [(ih, (addr.1, p))])))
    ∧ (tok ≠ ih.take tokenLength →
        (on_announce_peer_request tokenLength selfNid msg addr).1 = []
        ∧ (∀ tv nid, msg.t = some tv → msg.aId = some (.bytes nid) →
            (on_announce_peer_request tokenLength selfNid msg addr).2 =
              [⟨tv, "r", get_neighbor nid selfNid⟩])) := by
  constructor
  · intro htokeq
    have hcond : ¬ ih.take tokenLength ≠ tok := by
      simp [htokeq]
    constructor
    · intro v hv hv0
      unfold on_announce_peer_request
      rw [hih, htok]
      simp only [if_neg hcond]
      cases v with
      | int n =>
        have hn : n ≠ 0 := by
          intro h0
          exact hv0 (by rw [h0])
        rw [hv]
        simp [hn]
      | bytes s => rw [hv]; simp
      | list xs => rw [hv]; simp
      | dict kvs => rw [hv]; simp
    · intro p himp hport hp1 hp2
      unfold on_announce_peer_request
      rw [hih, htok]
      simp only [if_neg hcond]
      have hrange : ¬ (p < 1 ∨ p > 65535) := by omega
      cases himp with
      | inl hnone =>
        rw [hnone, hport]
        simp only [hrange, if_false]
      | inr hzero =>
        rw [hzero, hport]
        simp only [hrange, if_false, if_true]
  · intro hne
    have hcond : ih.take tokenLength ≠ tok := fun h => hne h.symm
    constructor
    · unfold on_announce_peer_request
      rw [hih, htok]
      simp only [if_pos hcond]
    · intro tv nid ht hid
      unfold on_announce_peer_request
      rw [ht, hid]

/-- Witness for C2: a concrete mismatched-token announce logs nothing. -/
theorem announce_peer_ports_and_token_witness :
    (on_announce_peer_request 2 (List.replicate 20 0)
        ⟨some (.bytes [9]), some (.bytes (List.replicate 20 7)),
         some (List.replicate 20 1), some [2, 2], none, none⟩
        ("1.2.3.4", 5555)).1 = [] :=
  ((announce_peer_ports_and_token 2 (List.replicate 20 0) (List.replicate 20 1) [2, 2]
      ⟨some (.bytes [9]), some (.bytes (List.replicate 20 7)),
       some (List.replicate 20 1), some [2, 2], none, none⟩
      ("1.2.3.4", 5555) rfl rfl).2 (by decide)).1

/-! ## Claim C8 — reputation-store sampling -/

/-- An admissible outcome of `random.sample(l, n)` that selects from the end
of the pool. -/
def pickLastT (l : List (String × Int × Int)) (n : Nat) : List (String × Int × Int) :=
  l.reverse.take n

/-- Five stored peers, most-recent first (the order `mark_ok` maintains). -/
def peers5 : List (String × Int × Int) :=
  [("a", 1, 50), ("b", 2, 40), ("c", 3, 30), ("d", 4, 20), ("e", 5, 10)]

/-- C8 counterexample: `pickLastT` is a legitimate `random.sample` outcome
(right length, elements of the pool), yet `MetadataPeerStore.sample(1)` run
with it returns the 5th-most-recent address, which is not among the top
`max(4·1, 1) = 4` entries ordered by most-recent `last_ok`: the metadata
store's `sample` draws from the whole `_peers` list, not a top-`4k` pool. -/
theorem md_sample_top4k_cex :
    (∀ (l : List (String × Int × Int)) (n : Nat), n ≤ l.length →
      ((pickLastT l n).length = n ∧ ∀ x ∈ pickLastT l n, x ∈ l))
    ∧ mdSample pickLastT ⟨peers5⟩ 1 = [("e", 5)]
    ∧ ("e", 5) ∉ ((sortTsDescT peers5).take (max (1 * 4) 1)).map
        (fun p => (p.1, p.2.1)) := by
  refine ⟨?_, by decide, by decide⟩
  intro l n hn
  constructor
  · simp [pickLastT, List.length_take, List.length_reverse]
    omega
  · intro x hx
    have := List.take_subset n l.reverse hx
    exact List.mem_reverse.mp this

/-- C8 amended: both samplers return at most `k` addresses; every address
`sample_previous(k)` returns comes from the top `max(4k, k)` stored entries
ordered by most-recent `last_ok`, while every address
`MetadataPeerStore.sample(k)` returns comes from the whole store (which is
kept most-recent-first and capped at `max_peers`), not from a top-`max(4k,k)`
pool. -/
theorem sample_bounds (pickT : List (String × Int × Int) → Nat → List (String × Int × Int))
    (pickP : List (String × Int) → Nat → List (String × Int))
    (hT : ∀ l n, n ≤ l.length → ((pickT l n).length = n ∧ ∀ x ∈ pickT l n, x ∈ l))
    (hP : ∀ l n, n ≤ l.length → ((pickP l n).length = n ∧ ∀ x ∈ pickP l n, x ∈ l))
    (stM : PeerStore) (stB : BootstrapStore) (k : Nat) :
    ((mdSample pickT stM k).length ≤ k
      ∧ ∀ a ∈ mdSample pickT stM k, ∃ p ∈ stM.peers, a = (p.1, p.2.1))
    ∧ ((sample_previous pickP stB k).length ≤ k
      ∧ ∀ a ∈ sample_previous pickP stB k,
          a ∈ ((sortTsDesc stB.peers).take (max (k * 4) k)).map Prod.fst) := by
  constructor
  · unfold mdSample
    by_cases hemp : stM.peers = []
    · simp [hemp]
    · rw [if_neg hemp]
      dsimp only
      by_cases hgt : stM.peers.length > min k stM.peers.length
      · rw [if_pos hgt]
        obtain ⟨hlen, hmem⟩ := hT stM.peers (min k stM.peers.length) (by omega)
        constructor
        · rw [List.length_map, hlen]
          omega
        · intro a ha
          obtain ⟨p, hp, hpa⟩ := List.mem_map.mp ha
          exact ⟨p, hmem p hp, hpa.symm⟩
      · rw [if_neg hgt]
        constructor
        · rw [List.length_map]
          omega
        · intro a ha
          obtain ⟨p, hp, hpa⟩ := List.mem_map.mp ha
          exact ⟨p, hp, hpa.symm⟩
  · unfold sample_previous
    by_cases hemp : stB.peers = []
    · simp [hemp]
    · rw [if_neg hemp]
      dsimp only
      set pool := ((sortTsDesc stB.peers).take (max (k * 4) k)).map Prod.fst with hpool
      by_cases hgt : pool.length > min k pool.length
      · rw [if_pos hgt]
        obtain ⟨hlen, hmem⟩ := hP pool (min k pool.length) (by omega)
        exact ⟨by omega, hmem⟩
      · rw [if_neg hgt]
        exact ⟨by omega, fun a ha => ha⟩

/-- Witness for C8's amended statement: sampling with the take-front
selection from concrete stores. -/
theorem sample_bounds_witness :
    (mdSample (fun l n => l.take n) ⟨peers5⟩ 2).length ≤ 2 :=
  (sample_bounds (fun l n => l.take n) (fun l n => l.take n)
    (fun l n hn => ⟨by simp [List.length_take]; omega, fun x hx => List.take_subset n l hx⟩)
    (fun l n hn => ⟨by simp [List.length_take]; omega, fun x hx => List.take_subset n l hx⟩)
    ⟨peers5⟩ ⟨[(("a", 1), 50)]⟩ 2).1.1

/-! ## Claim C1 — SHA-1 gate and the reconstructed torrent bytes -/

/-- C1: whenever `download_metadata` returns `"ok"`, the reassembled
metadata (the concatenation, in piece order, of the captured piece
payloads) has `hexUpper (sha1 metadata) = hexUpper infohash`, and
`storage_info_fn` was invoked exactly once, with `torrent_bytes` equal to
`b"d4:info" + metadata + b"e"`; whenever the SHA-1 comparison is reached and
fails, the call returns `"sha1_mismatch"` and `storage_info_fn` is never
invoked. -/
theorem download_metadata_ok_sha1 (sha1fn : List Nat → List Nat)
    (infohash hsResp lp extBody : List Nat) (blobs : List (List Nat)) :
    ((download_metadata sha1fn infohash hsResp lp extBody blobs).status = "ok" →
      ∃ m, (download_metadata sha1fn infohash hsResp lp extBody blobs).meta = some m
        ∧ hexUpper (sha1fn m) = hexUpper infohash
        ∧ (download_metadata sha1fn infohash hsResp lp extBody blobs).calls =
            [d4infoBytes ++ m ++ [101]]
        ∧ ∃ ut size, parse_ext_handshake (lp ++ extBody) = some (ut, size)
            ∧ m = (capturePieces blobs ((size + 16383) / 16384).toNat).flatten)
    ∧ ((download_metadata sha1fn infohash hsResp lp extBody blobs).status = "sha1_mismatch" →
        (download_metadata sha1fn infohash hsResp lp extBody blobs).calls = [])
    ∧ (∀ m, (download_metadata sha1fn infohash hsResp lp extBody blobs).meta = some m →
        hexUpper (sha1fn m) ≠ hexUpper infohash →
        (download_metadata sha1fn infohash hsResp lp extBody blobs).status = "sha1_mismatch"
        ∧ (download_metadata sha1fn infohash hsResp lp extBody blobs).calls = []) := by
  unfold download_metadata
  by_cases h1 : ¬ check_handshake hsResp infohash = true
  · rw [if_pos h1]
    exact ⟨fun h => absurd h (by simp), fun _ => rfl, fun m hm => absurd hm (by simp)⟩
  · rw [if_neg h1]
    by_cases h2 : lp.length ≠ 4
    · rw [if_pos h2]
      exact ⟨fun h => absurd h (by simp), fun _ => rfl, fun m hm => absurd hm (by simp)⟩
    · rw [if_neg h2]
      dsimp only
      by_cases h3 : beU32 lp = 0 ∨ beU32 lp > 2000000
      · rw [if_pos h3]
        exact ⟨fun h => absurd h (by simp), fun _ => rfl, fun m hm => absurd hm (by simp)⟩
      · rw [if_neg h3]
        by_cases h4 : extBody.length ≠ beU32 lp
        · rw [if_pos h4]
          exact ⟨fun h => absurd h (by simp), fun _ => rfl, fun m hm => absurd hm (by simp)⟩
        · rw [if_neg h4]
          cases hparse : parse_ext_handshake (lp ++ extBody) with
          | none =>
            exact ⟨fun h => absurd h (by simp), fun _ => rfl, fun m hm => absurd hm (by simp)⟩
          | some r =>
            obtain ⟨ut, size⟩ := r
            dsimp only
            by_cases h5 : (size + 16383) / 16384 ≤ 0 ∨ (size + 16383) / 16384 > 4096
            · rw [if_pos h5]
              exact ⟨fun h => absurd h (by simp), fun _ => rfl, fun m hm => absurd hm (by simp)⟩
            · rw [if_neg h5]
              by_cases h6 : capturePieces blobs ((size + 16383) / 16384).toNat = []
              · rw [if_pos h6]
                exact ⟨fun h => absurd h (by simp), fun _ => rfl,
                  fun m hm => absurd hm (by simp)⟩
              · rw [if_neg h6]
                by_cases h7 : hexUpper (sha1fn
                    (capturePieces blobs ((size + 16383) / 16384).toNat).flatten) ≠
                    hexUpper infohash
                · rw [if_pos h7]
                  refine ⟨fun h => absurd h (by simp), fun _ => rfl, fun m hm hne => ?_⟩
                  simp only [Option.some_inj] at hm
                  exact ⟨rfl, rfl⟩
                · rw [if_neg h7]
                  cases hdec : pyBdecode
                      (capturePieces blobs ((size + 16383) / 16384).toNat).flatten with
                  | none =>
                    refine ⟨fun h => absurd h (by simp), fun h => absurd h (by simp),
                      fun m hm hne => ?_⟩
                    simp only [Option.some_inj] at hm
                    subst hm
                    exact absurd hne h7
                  | some v =>
                    refine ⟨fun _ => ?_, fun h => absurd h (by simp), fun m hm hne => ?_⟩
                    · refine ⟨(capturePieces blobs ((size + 16383) / 16384).toNat).flatten,
                        rfl, not_not.mp h7, rfl, ut, size, rfl, rfl⟩
                    · simp only [Option.some_inj] at hm
                      subst hm
                      exact absurd hne h7

/-! ### Concrete fetch runs (witnesses and counterexamples for C1, C6, C7) -/

/-- A 20-byte infohash of zeros. -/
def ihz : List Nat := List.replicate 20 0

/-- A valid 68-byte BitTorrent handshake reply carrying `ihz`. -/
def hsz : List Nat :=
  19 :: btProtocolBytes ++ List.replicate 8 0 ++ ihz ++ List.replicate 20 0

/-- Length prefix 45 = 2 + 43 for the extension-handshake body below. -/
def lpA : List Nat := [0, 0, 0, 45]

/-- Bencoding of `{m: {ut_metadata: 1}, metadata_size: 2}`. -/
def payloadA : List Nat :=
  [100, 49, 58, 109, 100, 49, 49, 58, 117, 116, 95, 109, 101, 116, 97, 100, 97,
   116, 97, 105, 49, 101, 101, 49, 51, 58, 109, 101, 116, 97, 100, 97, 116, 97,
   95, 115, 105, 122, 101, 105, 50, 101, 101]

/-- Extension-handshake body: `0x14 0x00` followed by `payloadA`. -/
def bodyA : List Nat := 20 :: 0 :: payloadA

/-- Piece-0 reply: `b"xee"` (the `"ee"` marker) followed by metadata `b"de"`. -/
def blobA : List Nat := [120, 101, 101, 100, 101]

/-- The concrete C1 run fully evaluated: a successful fetch of metadata
`b"de"` with one storage call carrying `b"d4:infodee"`. -/
theorem c1_run_eval :
    download_metadata (fun _ => ihz) ihz hsz lpA bodyA [blobA] =
      ⟨"ok", [d4infoBytes ++ [100, 101] ++ [101]], some [100, 101]⟩ := by
  simp only [download_metadata, parse_ext_handshake, split_ut_metadata_message,
    capturePieces, capturePiece, pyBdecode_eq_F, bencode_next_index_eq_F]
  decide

/-- Witness for C1: the theorem applied to the concrete successful run. -/
theorem download_metadata_ok_sha1_witness :
    ∃ m, (download_metadata (fun _ => ihz) ihz hsz lpA bodyA [blobA]).meta = some m
      ∧ hexUpper ((fun _ => ihz) m) = hexUpper ihz
      ∧ (download_metadata (fun _ => ihz) ihz hsz lpA bodyA [blobA]).calls =
          [d4infoBytes ++ m ++ [101]]
      ∧ ∃ ut size, parse_ext_handshake (lpA ++ bodyA) = some (ut, size)
          ∧ m = (capturePieces [blobA] ((size + 16383) / 16384).toNat).flatten :=
  (download_metadata_ok_sha1 (fun _ => ihz) ihz hsz lpA bodyA [blobA]).1
    (by rw [c1_run_eval])

/-! ## Claims C6 and C7 — extension-handshake validation -/

/-- Exact characterization of a successful `parse_ext_handshake`: framing
checks, payload decodes to a dict whose `m` sub-dict holds an *integer*
`ut_metadata` (of any sign) and whose `metadata_size` is a *positive*
integer. -/
theorem parse_ext_some_iff (packet : List Nat) (ut size : Int) :
    parse_ext_handshake packet = some (ut, size) ↔
      (6 ≤ packet.length ∧ 2 < beU32 (packet.take 4)
        ∧ 4 + beU32 (packet.take 4) ≤ packet.length
        ∧ packet.getD 4 0 = 20 ∧ packet.getD 5 0 = 0
        ∧ ∃ d m, pyBdecode ((packet.drop 6).take (4 + beU32 (packet.take 4) - 6)) =
              some (.dict d)
            ∧ alGet d mKeyBytes = some (.dict m)
            ∧ alGet m utKeyBytes = some (.int ut)
            ∧ alGet d sizeKeyBytes = some (.int size)
            ∧ 0 < size) := by
  unfold parse_ext_handshake
  by_cases h6 : packet.length < 6
  · rw [if_pos h6]
    simp only [false_iff, reduceCtorEq]
    intro hc
    omega
  · rw [if_neg h6]
    dsimp only
    by_cases hm2 : beU32 (packet.take 4) ≤ 2
    · rw [if_pos hm2]
      simp only [false_iff, reduceCtorEq]
      intro hc
      omega
    · rw [if_neg hm2]
      by_cases hlen : packet.length < 4 + beU32 (packet.take 4)
      · rw [if_pos hlen]
        simp only [false_iff, reduceCtorEq]
        intro hc
        omega
      · rw [if_neg hlen]
        by_cases h20 : packet.getD 4 0 ≠ 20
        · rw [if_pos h20]
          simp only [false_iff, reduceCtorEq]
          intro hc
          exact h20 hc.2.2.2.1
        · rw [if_neg h20]
          by_cases h0 : packet.getD 5 0 ≠ 0
          · rw [if_pos h0]
            simp only [false_iff, reduceCtorEq]
            intro hc
            exact h0 hc.2.2.2.2.1
          · rw [if_neg h0]
            constructor
            · intro hp
              refine ⟨by omega, by omega, by omega, by omega, by omega, ?_⟩
              cases hdec : pyBdecode ((packet.drop 6).take (4 + beU32 (packet.take 4) - 6)) with
              | none => rw [hdec] at hp; simp at hp
              | some v =>
                rw [hdec] at hp
                cases v with
                | dict d =>
                  dsimp only at hp
                  cases hgm : alGet d mKeyBytes with
                  | none => rw [hgm] at hp; simp at hp
                  | some mv =>
                    rw [hgm] at hp
                    cases mv with
                    | dict m =>
                      dsimp only at hp
                      cases hgu : alGet m utKeyBytes with
                      | none => rw [hgu] at hp; simp at hp
                      | some uv =>
                        rw [hgu] at hp
                        cases hgs : alGet d sizeKeyBytes with
                        | none =>
                          rw [hgs] at hp
                          cases uv <;> simp at hp
                        | some sv =>
                          rw [hgs] at hp
                          cases uv with
                          | int u0 =>
                            cases sv with
                            | int s0 =>
                              dsimp only at hp
                              by_cases hpos : s0 > 0
                              · rw [if_pos hpos] at hp
                                simp only [Option.some_inj, Prod.mk.injEq] at hp
                                obtain ⟨hu, hs⟩ := hp
                                subst hu; subst hs
                                exact ⟨d, m, rfl, hgm, hgu, hgs, hpos⟩
                              · rw [if_neg hpos] at hp
                                simp at hp
                            | bytes s => simp at hp
                            | list xs => simp at hp
                            | dict kvs => simp at hp
                          | bytes s => cases sv <;> simp at hp
                          | list xs => cases sv <;> simp at hp
                          | dict kvs => cases sv <;> simp at hp
                    | int n => simp at hp
                    | bytes s => simp at hp
                    | list xs => simp at hp
                | int n => simp at hp
                | bytes s => simp at hp
                | list xs => simp at hp
            · rintro ⟨-, -, -, -, -, d, m, hdec, hgm, hgu, hgs, hpos⟩
              rw [hdec]
              dsimp only
              rw [hgm]
              dsimp only
              rw [hgu, hgs]
              dsimp only
              rw [if_pos hpos]

/-- A failed extension-handshake parse makes `download_metadata` return
`"ext_fail"` once the BT handshake and the framed read succeeded. -/
theorem download_ext_fail_of_parse_none (sha1fn : List Nat → List Nat)
    (ih hs lp body : List Nat) (blobs : List (List Nat))
    (hhs : check_handshake hs ih = true) (hlp : lp.length = 4)
    (hml0 : beU32 lp ≠ 0) (hml : beU32 lp ≤ 2000000) (hbody : body.length = beU32 lp)
    (hparse : parse_ext_handshake (lp ++ body) = none) :
    (download_metadata sha1fn ih hs lp body blobs).status = "ext_fail" := by
  unfold download_metadata
  rw [if_neg (by simp [hhs]), if_neg (by omega)]
  dsimp only
  rw [if_neg (by omega : ¬ (beU32 lp = 0 ∨ beU32 lp > 2000000)),
    if_neg (by omega : ¬ body.length ≠ beU32 lp), hparse]

/-- C6 counterexample: a remote extension handshake advertising
`metadata_size = 0` makes `download_metadata` return `"ext_fail"` — not
`"bad_pieces"` as claimed (the `pieces ≤ 0` branch is unreachable because
`parse_ext_handshake` already requires `metadata_size > 0`). -/
theorem metadata_size_zero_cex :
    (download_metadata (fun _ => ihz) ihz hsz [0, 0, 0, 23]
        (20 :: 0 :: [100, 49, 51, 58, 109, 101, 116, 97, 100, 97, 116, 97, 95,
          115, 105, 122, 101, 105, 48, 101, 101]) []).status = "ext_fail"
    ∧ (download_metadata (fun _ => ihz) ihz hsz [0, 0, 0, 23]
        (20 :: 0 :: [100, 49, 51, 58, 109, 101, 116, 97, 100, 97, 116, 97, 95,
          115, 105, 122, 101, 105, 48, 101, 101]) []).status ≠ "bad_pieces" := by
  have h : download_metadata (fun _ => ihz) ihz hsz [0, 0, 0, 23]
      (20 :: 0 :: [100, 49, 51, 58, 109, 101, 116, 97, 100, 97, 116, 97, 95,
        115, 105, 122, 101, 105, 48, 101, 101]) [] =
      ⟨"ext_fail", [], none⟩ := by
    simp only [download_metadata, parse_ext_handshake, split_ut_metadata_message,
      capturePieces, capturePiece, pyBdecode_eq_F, bencode_next_index_eq_F]
    decide
  rw [h]
  exact ⟨rfl, by simp⟩

/-- C6 amended: a remote extension handshake whose decoded payload carries
`metadata_size = 0` fails `parse_ext_handshake` (which requires a positive
size), so `download_metadata` returns `"ext_fail"`; the `pieces ≤ 0` branch
of the piece-count check is unreachable for parsed sizes. -/
theorem metadata_size_zero_ext_fail (sha1fn : List Nat → List Nat)
    (ih hs lp body : List Nat) (blobs : List (List Nat))
    (d : List (List Nat × BValue))
    (hhs : check_handshake hs ih = true) (hlp : lp.length = 4)
    (hml0 : beU32 lp ≠ 0) (hml : beU32 lp ≤ 2000000) (hbody : body.length = beU32 lp)
    (hdec : pyBdecode (((lp ++ body).drop 6).take
        (4 + beU32 ((lp ++ body).take 4) - 6)) = some (.dict d))
    (hsize : alGet d sizeKeyBytes = some (.int 0)) :
    parse_ext_handshake (lp ++ body) = none
    ∧ (download_metadata sha1fn ih hs lp body blobs).status = "ext_fail" := by
  have hparse : parse_ext_handshake (lp ++ body) = none := by
    cases hp : parse_ext_handshake (lp ++ body) with
    | none => rfl
    | some r =>
      exfalso
      obtain ⟨ut, size⟩ := r
      obtain ⟨-, -, -, -, -, d0, m0, hdec0, -, -, hgs0, hpos0⟩ :=
        (parse_ext_some_iff (lp ++ body) ut size).mp hp
      rw [hdec] at hdec0
      simp only [Option.some_inj, BValue.dict.injEq] at hdec0
      subst hdec0
      rw [hsize] at hgs0
      simp only [Option.some_inj, BValue.int.injEq] at hgs0
      omega
  exact ⟨hparse, download_ext_fail_of_parse_none sha1fn ih hs lp body blobs
    hhs hlp hml0 hml hbody hparse⟩

/-- Bencoding of `{metadata_size: 0}`. -/
def payloadZ : List Nat :=
  [100, 49, 51, 58, 109, 101, 116, 97, 100, 97, 116, 97, 95, 115, 105, 122,
   101, 105, 48, 101, 101]

/-- Witness for C6's amended statement at the concrete size-0 handshake. -/
theorem metadata_size_zero_ext_fail_witness :
    parse_ext_handshake ([0, 0, 0, 23] ++ (20 :: 0 :: payloadZ)) = none
    ∧ (download_metadata (fun _ => ihz) ihz hsz [0, 0, 0, 23]
        (20 :: 0 :: payloadZ) []).status = "ext_fail" :=
  metadata_size_zero_ext_fail (fun _ => ihz) ihz hsz [0, 0, 0, 23]
    (20 :: 0 :: payloadZ) [] [(sizeKeyBytes, .int 0)]
    (by decide) rfl (by decide) (by decide) rfl
    (by rw [pyBdecode_eq_F]; rfl) rfl

/-- Bencoding of `{m: {ut_metadata: 0}, metadata_size: 5}`. -/
def payloadU : List Nat :=
  [100, 49, 58, 109, 100, 49, 49, 58, 117, 116, 95, 109, 101, 116, 97, 100, 97,
   116, 97, 105, 48, 101, 101, 49, 51, 58, 109, 101, 116, 97, 100, 97, 116, 97,
   95, 115, 105, 122, 101, 105, 53, 101, 101]

/-- C7 counterexample: a handshake advertising `ut_metadata = 0` — an
integer that is *not* positive — and `metadata_size = 5` is accepted by
`parse_ext_handshake` (returning `(0, 5)`), and `download_metadata`
proceeds past the extension stage (here to `"no_pieces"`, not
`"ext_fail"`): the parse requires `ut_metadata` to be an int, not a
positive one. -/
theorem parse_ext_ut_zero_cex :
    parse_ext_handshake ([0, 0, 0, 45] ++ (20 :: 0 :: payloadU)) = some (0, 5)
    ∧ (download_metadata (fun _ => ihz) ihz hsz [0, 0, 0, 45]
        (20 :: 0 :: payloadU) []).status = "no_pieces"
    ∧ (download_metadata (fun _ => ihz) ihz hsz [0, 0, 0, 45]
        (20 :: 0 :: payloadU) []).status ≠ "ext_fail" := by
  refine ⟨?_, ?_, ?_⟩
  · simp only [parse_ext_handshake, pyBdecode_eq_F]
    decide
  · simp only [download_metadata, parse_ext_handshake, split_ut_metadata_message,
      capturePieces, capturePiece, pyBdecode_eq_F, bencode_next_index_eq_F]
    decide
  · simp only [download_metadata, parse_ext_handshake, split_ut_metadata_message,
      capturePieces, capturePiece, pyBdecode_eq_F, bencode_next_index_eq_F]
    decide

/-- C7 amended: `parse_ext_handshake` succeeds exactly on framed bodies
whose payload decodes to a dict with `d[b"m"]` a dict holding an *integer*
`ut_metadata` (positivity is not required of it) and with
`d[b"metadata_size"]` a *positive* integer; whenever the parse fails — in
particular for every body with either field absent, of the wrong type, or
with a non-positive `metadata_size` — `download_metadata` returns
`"ext_fail"`. -/
theorem parse_ext_requirements (packet : List Nat) (ut size : Int)
    (sha1fn : List Nat → List Nat) (ih hs lp body : List Nat)
    (blobs : List (List Nat)) :
    (parse_ext_handshake packet = some (ut, size) ↔
      (6 ≤ packet.length ∧ 2 < beU32 (packet.take 4)
        ∧ 4 + beU32 (packet.take 4) ≤ packet.length
        ∧ packet.getD 4 0 = 20 ∧ packet.getD 5 0 = 0
        ∧ ∃ d m, pyBdecode ((packet.drop 6).take (4 + beU32 (packet.take 4) - 6)) =
              some (.dict d)
            ∧ alGet d mKeyBytes = some (.dict m)
            ∧ alGet m utKeyBytes = some (.int ut)
            ∧ alGet d sizeKeyBytes = some (.int size)
            ∧ 0 < size))
    ∧ (check_handshake hs ih = true → lp.length = 4 → beU32 lp ≠ 0 →
        beU32 lp ≤ 2000000 → body.length = beU32 lp →
        parse_ext_handshake (lp ++ body) = none →
        (download_metadata sha1fn ih hs lp body blobs).status = "ext_fail") :=
  ⟨parse_ext_some_iff packet ut size,
   fun hhs hlp h0 hm hb hp =>
     download_ext_fail_of_parse_none sha1fn ih hs lp body blobs hhs hlp h0 hm hb hp⟩

/-- Witness for C7's amended statement: a body whose payload is not bencode
at all fails the parse and yields `"ext_fail"`. -/
theorem parse_ext_requirements_witness :
    (download_metadata (fun _ => ihz) ihz hsz [0, 0, 0, 3] [20, 0, 120] []).status =
      "ext_fail" :=
  (parse_ext_requirements [] 0 1 (fun _ => ihz) ihz hsz [0, 0, 0, 3] [20, 0, 120] []).2
    (by decide) rfl (by decide) (by decide) rfl
    (by simp only [parse_ext_handshake, pyBdecode_eq_F]; decide)

/-! ## Claim C9 — bencode round trip and sorted dict emission

The proof chain: decimal digits round-trip through Python `int()`; the
encoder's output for each shape decodes back, by induction on the value;
dicts come back with their entries in the encoder's sorted order
(`sortDicts`), which Python `==` cannot tell apart from the original. -/

/-- Every byte of `natDigits n` is an ASCII digit. -/
theorem natDigits_digits : ∀ n : Nat, ∀ c ∈ natDigits n, 48 ≤ c ∧ c ≤ 57 := by
  intro n
  induction n using Nat.strong_induction_on with
  | _ n ih =>
    rw [natDigits]
    split
    · intro c hc
      rename_i h
      simp only [List.mem_singleton] at hc
      omega
    · rename_i h
      intro c hc
      rw [List.mem_append] at hc
      cases hc with
      | inl h1 => exact ih (n / 10) (Nat.div_lt_self (by omega) (by omega)) c h1
      | inr h2 =>
        simp only [List.mem_singleton] at h2
        have := Nat.mod_lt n (show 0 < 10 by omega)
        omega

/-- `str(n)` is never empty. -/
theorem natDigits_ne_nil (n : Nat) : natDigits n ≠ [] := by
  rw [natDigits]
  split <;> simp

/-- Splitting an accumulating digit parse at an append. -/
theorem goDigits_append (a b : List Nat) : ∀ acc, goDigits (a ++ b) acc =
    match goDigits a acc with
    | none => none
    | some m => goDigits b m := by
  induction a with
  | nil => intro acc; simp [goDigits]
  | cons c cs ih =>
    intro acc
    simp only [List.cons_append, goDigits]
    by_cases h : 48 ≤ c ∧ c ≤ 57
    · rw [if_pos h, if_pos h]
      exact ih (acc * 10 + (c - 48))
    · rw [if_neg h, if_neg h]

/-- The digit parse inverts `str` on naturals, with the accumulator scaled
by the digit count. -/
theorem goDigits_natDigits : ∀ n : Nat, ∀ acc,
    goDigits (natDigits n) acc = some (acc * 10 ^ (natDigits n).length + n) := by
  intro n
  induction n using Nat.strong_induction_on with
  | _ n ih =>
    intro acc
    rw [natDigits]
    split
    · rename_i h
      simp only [goDigits, if_pos (show 48 ≤ 48 + n ∧ 48 + n ≤ 57 by omega)]
      simp only [List.length_cons, List.length_nil, pow_one, Option.some_inj]
      omega
    · rename_i h
      rw [goDigits_append, ih (n / 10) (Nat.div_lt_self (by omega) (by omega)) acc]
      have hd : 0 ≤ n % 10 ∧ n % 10 < 10 := ⟨Nat.zero_le _, Nat.mod_lt n (by omega)⟩
      simp only [goDigits, if_pos (show 48 ≤ 48 + n % 10 ∧ 48 + n % 10 ≤ 57 by omega)]
      simp only [List.length_append, List.length_cons, List.length_nil, Option.some_inj]
      have hmod : 48 + n % 10 - 48 = n % 10 := by omega
      rw [hmod]
      rw [pow_succ, ← mul_assoc]
      have hdm := Nat.div_add_mod n 10
      set A := acc * 10 ^ (natDigits (n / 10)).length
      omega

/-- `int(str(n)) = n` for naturals. -/
theorem digitsVal_natDigits (n : Nat) : digitsVal (natDigits n) = some n := by
  unfold digitsVal
  rw [if_neg (natDigits_ne_nil n), goDigits_natDigits]
  congr 1
  omega

/-- Every byte of `str(i)` is a digit or the minus sign. -/
theorem intStr_chars (n : Int) : ∀ c ∈ intStr n, (48 ≤ c ∧ c ≤ 57) ∨ c = 45 := by
  unfold intStr
  split
  · intro c hc
    rw [List.mem_cons] at hc
    cases hc with
    | inl h => right; exact h
    | inr h => left; exact natDigits_digits _ c h
  · intro c hc
    left
    exact natDigits_digits _ c hc

/-- `int(str(i)) = i` for integers. -/
theorem pyIntParse_intStr (n : Int) : pyIntParse (intStr n) = some n := by
  unfold intStr
  by_cases hn : n < 0
  · rw [if_pos hn]
    rw [pyIntParse]
    rw [if_neg (by omega), if_pos rfl, digitsVal_natDigits]
    simp only [Option.map_some', Option.some_inj]
    have h : ((-n).toNat : Int) = -n := Int.toNat_of_nonneg (by omega)
    rw [show Int.ofNat (-n).toNat = ((-n).toNat : Int) from rfl, h]
    omega
  · rw [if_neg hn]
    rcases hD : natDigits n.toNat with _ | ⟨c, cs⟩
    · exact absurd hD (natDigits_ne_nil _)
    · have hc : 48 ≤ c ∧ c ≤ 57 := natDigits_digits _ c (by rw [hD]; simp)
      rw [pyIntParse]
      rw [if_neg (by omega), if_neg (by omega), ← hD, digitsVal_natDigits]
      simp only [Option.map_some', Option.some_inj]
      exact Int.toNat_of_nonneg (by omega)

/-- Finding a byte just past a stretch that avoids it. -/
theorem findByte_append_not (c : Nat) (s r : List Nat) (hs : ∀ x ∈ s, x ≠ c) :
    findByte c (s ++ c :: r) = some s.length := by
  induction s with
  | nil => simp [findByte]
  | cons x t ih =>
    rw [List.cons_append, findByte, if_neg (hs x (by simp))]
    rw [ih fun y hy => hs y (by simp [hy])]
    simp

/-- Dropping an initial segment plus its delimiter. -/
theorem drop_len_succ_append {α : Type} (a : List α) (x : α) (b : List α) :
    (a ++ x :: b).drop (a.length + 1) = b := by
  induction a with
  | nil => simp
  | cons y t ih =>
    rw [List.cons_append, List.length_cons, List.drop_succ_cons]
    exact ih


/-! ### Encoder shapes and key-sorting facts -/

/-- Encoder equation for integers. -/
theorem mBencode_int (n : Int) : mBencode (.int n) = 105 :: intStr n ++ [101] := by
  rw [mBencode]

/-- Encoder equation for byte strings. -/
theorem mBencode_bytes (s : List Nat) :
    mBencode (.bytes s) = natDigits s.length ++ 58 :: s := by
  rw [mBencode]

/-- Encoder equation for lists. -/
theorem mBencode_list (xs : List BValue) :
    mBencode (.list xs) = 108 :: (xs.map mBencode).flatten ++ [101] := by
  rw [mBencode]
  congr 2
  exact congrArg List.flatten (List.attach_map_val xs mBencode)

/-- Encoder equation for dicts: entries in sorted key order. -/
theorem mBencode_dict (kvs : List (List Nat × BValue)) :
    mBencode (.dict kvs) =
      100 :: ((sortKeys kvs).map fun kv => mBencode (.bytes kv.1) ++ mBencode kv.2).flatten
        ++ [101] := by
  rw [mBencode]
  congr 2
  exact congrArg List.flatten
    (List.attach_map_val (sortKeys kvs) fun kv => mBencode (.bytes kv.1) ++ mBencode kv.2)

/-- `sortDicts` equation for lists. -/
theorem sortDicts_list (xs : List BValue) :
    sortDicts (.list xs) = .list (xs.map sortDicts) := by
  rw [sortDicts]
  congr 1
  exact List.attach_map_val xs sortDicts

/-- `sortDicts` equation for dicts. -/
theorem sortDicts_dict (kvs : List (List Nat × BValue)) :
    sortDicts (.dict kvs) =
      .dict (sortKeys (kvs.map fun kv => (kv.1, sortDicts kv.2))) := by
  rw [sortDicts]
  congr 2
  exact List.attach_map_val kvs fun kv => (kv.1, sortDicts kv.2)

/-- The encoded form is never empty. -/
theorem mBencode_ne_nil (v : BValue) : mBencode v ≠ [] := by
  cases v with
  | int n => rw [mBencode_int]; simp
  | bytes s =>
    rw [mBencode_bytes]
    intro h
    exact natDigits_ne_nil s.length (List.append_eq_nil.mp h).1
  | list xs => rw [mBencode_list]; simp
  | dict kvs => rw [mBencode_dict]; simp

/-- The encoded form has positive length. -/
theorem mBencode_length_pos (v : BValue) : 0 < (mBencode v).length := by
  cases hv : mBencode v with
  | nil => exact absurd hv (mBencode_ne_nil v)
  | cons c t => simp

/-- The first byte of any encoding is `i`, `l`, `d` or a digit — never
`e` (0x65). -/
theorem mBencode_head_spec (v : BValue) (c : Nat) (t : List Nat)
    (h : mBencode v = c :: t) :
    c = 105 ∨ c = 108 ∨ c = 100 ∨ (48 ≤ c ∧ c ≤ 57) := by
  cases v with
  | int n => rw [mBencode_int] at h; simp at h; left; omega
  | bytes s =>
    rw [mBencode_bytes] at h
    rcases hD : natDigits s.length with _ | ⟨c0, t0⟩
    · exact absurd hD (natDigits_ne_nil _)
    · rw [hD] at h
      simp only [List.cons_append, List.cons.injEq] at h
      right; right; right
      have := natDigits_digits s.length c0 (by rw [hD]; simp)
      omega
  | list xs => rw [mBencode_list] at h; simp at h; right; left; omega
  | dict kvs => rw [mBencode_dict] at h; simp at h; right; right; left; omega

/-- Total order: `bytesLeB` is total. -/
theorem bytesLeB_total : ∀ a b : List Nat, bytesLeB a b = true ∨ bytesLeB b a = true := by
  intro a
  induction a with
  | nil => intro b; left; rw [bytesLeB]
  | cons x t ih =>
    intro b
    cases b with
    | nil => right; rw [bytesLeB]
    | cons y u =>
      rw [bytesLeB, bytesLeB]
      by_cases hxy : x < y
      · left; rw [if_pos hxy]
      · by_cases hyx : y < x
        · right; rw [if_pos hyx]
        · rw [if_neg hxy, if_neg (by omega : ¬ y > x), if_neg hyx,
            if_neg (by omega : ¬ x > y)]
          exact ih u

/-- Transitivity of `bytesLeB`. -/
theorem bytesLeB_trans : ∀ a b c : List Nat,
    bytesLeB a b = true → bytesLeB b c = true → bytesLeB a c = true := by
  intro a
  induction a with
  | nil => intro b c _ _; rw [bytesLeB]
  | cons x t ih =>
    intro b c hab hbc
    cases b with
    | nil => rw [bytesLeB] at hab; simp at hab
    | cons y u =>
      cases c with
      | nil => rw [bytesLeB] at hbc; simp at hbc
      | cons z w =>
        rw [bytesLeB] at hab hbc ⊢
        by_cases hxy : x < y
        · by_cases hyz : y < z
          · rw [if_pos (by omega : x < z)]
          · rw [if_neg hyz] at hbc
            by_cases hzy : z < y
            · rw [if_pos hzy] at hbc; simp at hbc
            · rw [if_pos (by omega : x < z)]
        · rw [if_neg hxy] at hab
          by_cases hyx : y < x
          · rw [if_pos hyx] at hab; simp at hab
          · rw [if_neg hyx] at hab
            by_cases hyz : y < z
            · rw [if_pos (by omega : x < z)]
            · rw [if_neg hyz] at hbc
              by_cases hzy : z < y
              · rw [if_pos hzy] at hbc; simp at hbc
              · rw [if_neg hzy] at hbc
                rw [if_neg (by omega : ¬ x < z), if_neg (by omega : ¬ z < x)]
                exact ih u w hab hbc

instance : IsTotal (List Nat × BValue) keyLe :=
  ⟨fun a b => bytesLeB_total a.1 b.1⟩

instance : IsTrans (List Nat × BValue) keyLe :=
  ⟨fun a b c => bytesLeB_trans a.1 b.1 c.1⟩

/-- The encoder's sort is a permutation of the entries. -/
theorem sortKeys_perm (kvs : List (List Nat × BValue)) :
    List.Perm (sortKeys kvs) kvs :=
  List.perm_insertionSort keyLe kvs

/-- The encoder's sort emits keys in non-decreasing byte order. -/
theorem sortKeys_sorted (kvs : List (List Nat × BValue)) :
    List.Pairwise keyLe (sortKeys kvs) :=
  List.sorted_insertionSort keyLe kvs

/-- A key-preserving value map commutes with `orderedInsert` on keys. -/
theorem orderedInsert_map_comm (g : BValue → BValue)
    (a : List Nat × BValue) :
    ∀ m : List (List Nat × BValue),
      List.orderedInsert keyLe (a.1, g a.2) (m.map fun kv => (kv.1, g kv.2)) =
        (List.orderedInsert keyLe a m).map fun kv => (kv.1, g kv.2) := by
  intro m
  induction m with
  | nil => rfl
  | cons b t ih =>
    simp only [List.map_cons, List.orderedInsert]
    by_cases h : keyLe a b
    · rw [if_pos (show keyLe (a.1, g a.2) (b.1, g b.2) from h), if_pos h]
      simp
    · rw [if_neg (show ¬ keyLe (a.1, g a.2) (b.1, g b.2) from h), if_neg h]
      simp only [List.map_cons, List.cons.injEq]
      exact ⟨trivial, ih⟩

/-- A key-preserving value map commutes with the encoder's sort. -/
theorem sortKeys_map_comm (g : BValue → BValue) :
    ∀ kvs : List (List Nat × BValue),
      sortKeys (kvs.map fun kv => (kv.1, g kv.2)) =
        (sortKeys kvs).map fun kv => (kv.1, g kv.2) := by
  intro kvs
  induction kvs with
  | nil => rfl
  | cons a t ih =>
    unfold sortKeys at *
    simp only [List.map_cons, List.insertionSort]
    rw [ih, orderedInsert_map_comm]

/-! ### Well-formedness transfer and accumulator facts -/

/-- Membership form of the list well-formedness predicate. -/
theorem wfBList_iff (xs : List BValue) :
    wfBList xs = true ↔ ∀ x ∈ xs, wfB x = true := by
  induction xs with
  | nil => simp [wfBList]
  | cons x t ih =>
    rw [wfBList, Bool.and_eq_true, ih]
    constructor
    · rintro ⟨h1, h2⟩ y hy
      rcases List.mem_cons.mp hy with h | h
      · rw [h]; exact h1
      · exact h2 y h
    · intro h
      exact ⟨h x (by simp), fun y hy => h y (by simp [hy])⟩

/-- Membership form of the entry well-formedness predicate. -/
theorem wfBEntries_iff (kvs : List (List Nat × BValue)) :
    wfBEntries kvs = true ↔ ∀ kv ∈ kvs, wfB kv.2 = true := by
  induction kvs with
  | nil => simp [wfBEntries]
  | cons p t ih =>
    obtain ⟨k, v⟩ := p
    rw [wfBEntries, Bool.and_eq_true, ih]
    constructor
    · rintro ⟨h1, h2⟩ kv hkv
      rcases List.mem_cons.mp hkv with h | h
      · rw [h]; exact h1
      · exact h2 kv h
    · intro h
      exact ⟨h (k, v) (by simp), fun kv hkv => h kv (by simp [hkv])⟩

/-- `distinctKeys` is `Nodup`. -/
theorem distinctKeys_iff (l : List (List Nat)) :
    distinctKeys l = true ↔ l.Nodup := by
  induction l with
  | nil => simp [distinctKeys]
  | cons k t ih =>
    rw [distinctKeys, Bool.and_eq_true, ih, List.nodup_cons]
    constructor
    · rintro ⟨h1, h2⟩
      refine ⟨fun hm => ?_, h2⟩
      rw [Bool.not_eq_eq_eq_not, Bool.not_true] at h1
      have hc : t.contains k = true := List.elem_iff.mpr hm
      rw [h1] at hc
      simp at hc
    · rintro ⟨h1, h2⟩
      refine ⟨?_, h2⟩
      rw [Bool.not_eq_eq_eq_not, Bool.not_true]
      by_cases hc : t.contains k
      · exact absurd (List.elem_iff.mp hc) h1
      · simpa using hc

/-- Setting a fresh key appends it. -/
theorem alSet_append_fresh {κ ν : Type} [DecidableEq κ] (acc : List (κ × ν)) (k : κ) (v : ν)
    (h : ∀ p ∈ acc, p.1 ≠ k) : alSet acc k v = acc ++ [(k, v)] := by
  induction acc with
  | nil => rfl
  | cons p t ih =>
    obtain ⟨k0, v0⟩ := p
    rw [alSet, if_neg (h (k0, v0) (by simp)), List.cons_append]
    rw [ih fun q hq => h q (by simp [hq])]

/-- A binding with a unique key is read back. -/
theorem alGet_of_mem_nodup {κ ν : Type} [DecidableEq κ] (l : List (κ × ν))
    (hn : (l.map Prod.fst).Nodup) (k : κ) (v : ν) (hm : (k, v) ∈ l) :
    alGet l k = some v := by
  induction l with
  | nil => simp at hm
  | cons p t ih =>
    obtain ⟨k0, v0⟩ := p
    simp only [List.map_cons, List.nodup_cons] at hn
    rcases List.mem_cons.mp hm with h | h
    · injection h with h1 h2
      subst h1
      subst h2
      rw [alGet, if_pos rfl]
    · rw [alGet]
      by_cases hk : k0 = k
      · exfalso
        apply hn.1
        subst hk
        exact List.mem_map.mpr ⟨(k0, v), h, rfl⟩
      · rw [if_neg hk]
        exact ih hn.2 h

/-! ### Decoding the encoder's output, shape by shape -/

/-- `int(bytes)` on a bare digit string. -/
theorem pyIntParse_natDigits (m : Nat) : pyIntParse (natDigits m) = some (Int.ofNat m) := by
  rcases hD : natDigits m with _ | ⟨c, t⟩
  · exact absurd hD (natDigits_ne_nil _)
  · have hc : 48 ≤ c ∧ c ≤ 57 := natDigits_digits _ c (by rw [hD]; simp)
    rw [pyIntParse, if_neg (by omega), if_neg (by omega), ← hD, digitsVal_natDigits]
    simp

/-- Recovering the subtype form from an `unconsume` equation. -/
theorem unconsume_some {α : Type} {r : Option (α × { k : Nat // 0 < k })} {v : α} {n : Nat}
    (h : unconsume r = some (v, n)) :
    ∃ hp : 0 < n, r = some (v, ⟨n, hp⟩) := by
  cases hx : r with
  | none => rw [hx] at h; simp [unconsume] at h
  | some p =>
    obtain ⟨v0, k⟩ := p
    rw [hx] at h
    simp only [unconsume, Option.map_some', Option.some_inj, Prod.mk.injEq] at h
    obtain ⟨hv, hk⟩ := h
    subst hv
    refine ⟨hk ▸ k.2, ?_⟩
    congr 1
    exact Prod.ext rfl (Subtype.ext hk)

/-- An encoded integer decodes to itself, consuming its encoding. -/
theorem bdecAux_enc_int (n : Int) (rest : List Nat) :
    unconsume (bdecAux (mBencode (.int n) ++ rest)) =
      some (.int n, (mBencode (.int n)).length) := by
  rw [mBencode_int]
  have hshape : (105 :: intStr n ++ [101]) ++ rest = 105 :: (intStr n ++ 101 :: rest) := by
    simp
  rw [hshape, bdecAux, if_pos rfl]
  rw [findByte_append_not 101 (intStr n) rest
    (fun x hx => by have := intStr_chars n x hx; omega)]
  dsimp only
  rw [List.take_left, pyIntParse_intStr]
  dsimp only
  simp [unconsume, List.length_append]

/-- An encoded byte string decodes to itself, consuming its encoding. -/
theorem bdecAux_enc_bytes (s : List Nat) (rest : List Nat) :
    unconsume (bdecAux (mBencode (.bytes s) ++ rest)) =
      some (.bytes s, (mBencode (.bytes s)).length) := by
  rw [mBencode_bytes]
  rcases hD : natDigits s.length with _ | ⟨c, t⟩
  · exact absurd hD (natDigits_ne_nil _)
  · have hc : 48 ≤ c ∧ c ≤ 57 := natDigits_digits _ c (by rw [hD]; simp)
    have htdig : ∀ x ∈ c :: t, x ≠ 58 := by
      intro x hx
      have := natDigits_digits s.length x (by rw [hD]; exact hx)
      omega
    have hshape : ((c :: t) ++ 58 :: s) ++ rest =
        c :: (t ++ 58 :: (s ++ rest)) := by
      simp
    rw [hshape, bdecAux]
    rw [if_neg (by omega), if_neg (by omega), if_neg (by omega), if_pos hc]
    have hfind : findByte 58 (c :: (t ++ 58 :: (s ++ rest))) = some (c :: t).length := by
      have h := findByte_append_not 58 (c :: t) (s ++ rest) htdig
      rw [List.cons_append] at h
      exact h
    rw [hfind]
    dsimp only
    have htake : (c :: (t ++ 58 :: (s ++ rest))).take (c :: t).length = c :: t := by
      have h := List.take_left (c :: t) (58 :: (s ++ rest))
      rw [List.cons_append] at h
      exact h
    rw [htake]
    have hparse : pyIntParse (c :: t) = some (Int.ofNat s.length) := by
      rw [← hD]; exact pyIntParse_natDigits s.length
    rw [hparse]
    dsimp only
    have hdrop : (c :: (t ++ 58 :: (s ++ rest))).drop ((c :: t).length + 1) = s ++ rest := by
      have h := drop_len_succ_append (c :: t) 58 (s ++ rest)
      rw [List.cons_append] at h
      exact h
    have htoNat : (Int.ofNat s.length).toNat = s.length := rfl
    have hlen : (c :: t).length + 1 + s.length = ((c :: t) ++ 58 :: s).length := by
      simp [List.length_append]
      omega
    simp only [unconsume, Option.map_some']
    rw [htoNat, hdrop, List.take_left]
    simp only [Option.some_inj, Prod.mk.injEq]
    exact ⟨trivial, hlen⟩

/-- The `l…e` loop over a concatenation of encodings: each element decodes
to its sorted form, the closing `e` is consumed. -/
theorem bdecListAux_enc (xs : List BValue) (rest : List Nat)
    (IH : ∀ x ∈ xs, ∀ r : List Nat, unconsume (bdecAux (mBencode x ++ r)) =
        some (sortDicts x, (mBencode x).length)) :
    unconsume (bdecListAux ((xs.map mBencode).flatten ++ 101 :: rest)) =
      some (xs.map sortDicts, (xs.map mBencode).flatten.length + 1) := by
  induction xs with
  | nil =>
    simp only [List.map_nil, List.flatten_nil, List.nil_append, List.length_nil]
    rw [bdecListAux, if_pos rfl]
    rfl
  | cons x t ih =>
    have hbuf : ((x :: t).map mBencode).flatten ++ 101 :: rest =
        mBencode x ++ ((t.map mBencode).flatten ++ 101 :: rest) := by
      simp
    rw [hbuf]
    rcases hB : mBencode x with _ | ⟨c, cs⟩
    · exact absurd hB (mBencode_ne_nil x)
    · have hc := mBencode_head_spec x c cs hB
      have hx := IH x (by simp) ((t.map mBencode).flatten ++ 101 :: rest)
      rw [hB] at hx
      rw [List.cons_append] at hx ⊢
      rw [bdecListAux, if_neg (by rcases hc with h | h | h | h <;> omega)]
      obtain ⟨hp, hbd⟩ := unconsume_some hx
      rw [hbd]
      dsimp only
      have hdrop : (c :: (cs ++ ((t.map mBencode).flatten ++ 101 :: rest))).drop
          (c :: cs).length = (t.map mBencode).flatten ++ 101 :: rest := by
        have h := List.drop_left (c :: cs) ((t.map mBencode).flatten ++ 101 :: rest)
        rw [List.cons_append] at h
        exact h
      rw [hdrop]
      have hrec := ih fun y hy r => IH y (by simp [hy]) r
      obtain ⟨hp2, hbd2⟩ := unconsume_some hrec
      rw [hbd2]
      dsimp only
      simp only [unconsume, Option.map_some', Option.some_inj, Prod.mk.injEq,
        List.map_cons, List.flatten_cons, List.length_append, hB, List.length_cons]
      refine ⟨trivial, ?_⟩
      omega

/-- The `d…e` loop over a concatenation of encoded entries: every key/value
pair decodes, fresh keys append to the accumulator. -/
theorem bdecDictAux_enc (kvs : List (List Nat × BValue)) (rest : List Nat)
    (IH : ∀ kv ∈ kvs, ∀ r : List Nat, unconsume (bdecAux (mBencode kv.2 ++ r)) =
        some (sortDicts kv.2, (mBencode kv.2).length))
    (hnd : (kvs.map Prod.fst).Nodup) :
    ∀ acc : List (List Nat × BValue), (∀ kv ∈ kvs, ∀ p ∈ acc, p.1 ≠ kv.1) →
      unconsume (bdecDictAux
          ((kvs.map fun kv => mBencode (.bytes kv.1) ++ mBencode kv.2).flatten
            ++ 101 :: rest) acc) =
        some (acc ++ kvs.map fun kv => (kv.1, sortDicts kv.2),
          (kvs.map fun kv => mBencode (.bytes kv.1) ++ mBencode kv.2).flatten.length + 1) := by
  induction kvs with
  | nil =>
    intro acc _
    simp only [List.map_nil, List.flatten_nil, List.nil_append, List.length_nil,
      List.append_nil]
    rw [bdecDictAux, if_pos rfl]
    rfl
  | cons p t ih =>
    obtain ⟨k, v⟩ := p
    intro acc hfresh
    simp only [List.map_cons, List.nodup_cons] at hnd
    have hbuf : ((((k, v) :: t).map fun kv => mBencode (.bytes kv.1) ++ mBencode kv.2).flatten
        ++ 101 :: rest) =
        mBencode (.bytes k) ++ (mBencode v ++
          ((t.map fun kv => mBencode (.bytes kv.1) ++ mBencode kv.2).flatten
            ++ 101 :: rest)) := by
      simp
    rw [hbuf]
    rcases hB : mBencode (.bytes k) with _ | ⟨c, cs⟩
    · exact absurd hB (mBencode_ne_nil _)
    · have hc := mBencode_head_spec (.bytes k) c cs hB
      have hkey := bdecAux_enc_bytes k (mBencode v ++
        ((t.map fun kv => mBencode (.bytes kv.1) ++ mBencode kv.2).flatten ++ 101 :: rest))
      rw [hB] at hkey
      rw [List.cons_append] at hkey ⊢
      rw [bdecDictAux, if_neg (by rcases hc with h | h | h | h <;> omega)]
      obtain ⟨hp1, hbd1⟩ := unconsume_some hkey
      rw [hbd1]
      dsimp only
      have hdrop1 : (c :: (cs ++ (mBencode v ++
          ((t.map fun kv => mBencode (.bytes kv.1) ++ mBencode kv.2).flatten
            ++ 101 :: rest)))).drop (c :: cs).length =
          mBencode v ++
            ((t.map fun kv => mBencode (.bytes kv.1) ++ mBencode kv.2).flatten
              ++ 101 :: rest) := by
        have h := List.drop_left (c :: cs) (mBencode v ++
          ((t.map fun kv => mBencode (.bytes kv.1) ++ mBencode kv.2).flatten ++ 101 :: rest))
        rw [List.cons_append] at h
        exact h
      rw [hdrop1]
      have hval := IH (k, v) (by simp)
        ((t.map fun kv => mBencode (.bytes kv.1) ++ mBencode kv.2).flatten ++ 101 :: rest)
      obtain ⟨hp2, hbd2⟩ := unconsume_some hval
      rw [hbd2]
      dsimp only
      rw [List.drop_left]
      have hset : alSet acc k (sortDicts v) = acc ++ [(k, sortDicts v)] :=
        alSet_append_fresh acc k (sortDicts v) fun q hq => hfresh (k, v) (by simp) q hq
      rw [hset]
      have hfresh2 : ∀ kv ∈ t, ∀ q ∈ acc ++ [(k, sortDicts v)], q.1 ≠ kv.1 := by
        intro kv hkv q hq
        rcases List.mem_append.mp hq with h | h
        · exact hfresh kv (by simp [hkv]) q h
        · have hqk : q = (k, sortDicts v) := by simpa using h
          rw [hqk]
          intro hkk
          have hkk2 : k = kv.1 := hkk
          exact hnd.1 (by rw [hkk2]; exact List.mem_map.mpr ⟨kv, hkv, rfl⟩)
      have hrec := ih (fun kv hkv r => IH kv (by simp [hkv]) r) hnd.2
        (acc ++ [(k, sortDicts v)]) hfresh2
      obtain ⟨hp3, hbd3⟩ := unconsume_some hrec
      rw [hbd3]
      dsimp only
      simp only [unconsume, Option.map_some', Option.some_inj, Prod.mk.injEq,
        List.map_cons, List.flatten_cons, List.length_append, hB, List.length_cons,
        List.append_assoc, List.singleton_append]
      refine ⟨trivial, ?_⟩
      omega

/-- Decoding the encoding of any well-formed value returns its recursively
key-sorted form and consumes exactly the encoding, whatever follows. -/
theorem bdecAux_mBencode : ∀ d : BValue, wfB d = true → ∀ rest : List Nat,
    unconsume (bdecAux (mBencode d ++ rest)) = some (sortDicts d, (mBencode d).length)
  | .int n, _, rest => by
    rw [show sortDicts (.int n) = .int n from by rw [sortDicts]]
    exact bdecAux_enc_int n rest
  | .bytes s, _, rest => by
    rw [show sortDicts (.bytes s) = .bytes s from by rw [sortDicts]]
    exact bdecAux_enc_bytes s rest
  | .list xs, hwf, rest => by
    have hwf2 : wfBList xs = true := by rw [wfB] at hwf; exact hwf
    rw [mBencode_list, sortDicts_list]
    have hshape : (108 :: (xs.map mBencode).flatten ++ [101]) ++ rest =
        108 :: ((xs.map mBencode).flatten ++ 101 :: rest) := by
      simp
    rw [hshape, bdecAux]
    rw [if_neg (by omega : ¬ (108 : Nat) = 105), if_pos rfl]
    have hloop := bdecListAux_enc xs rest fun x hx r =>
      bdecAux_mBencode x ((wfBList_iff xs).mp hwf2 x hx) r
    obtain ⟨hp, hbd⟩ := unconsume_some hloop
    rw [hbd]
    dsimp only
    simp only [unconsume, Option.map_some', Option.some_inj, Prod.mk.injEq,
      List.length_cons, List.length_append, List.length_nil]
  | .dict kvs, hwf, rest => by
    have hwf2 : (distinctKeys (kvs.map Prod.fst) && wfBEntries kvs) = true := by
      rw [wfB] at hwf; exact hwf
    rw [Bool.and_eq_true] at hwf2
    have hnd : (kvs.map Prod.fst).Nodup := (distinctKeys_iff _).mp hwf2.1
    have hent : ∀ kv ∈ kvs, wfB kv.2 = true := (wfBEntries_iff kvs).mp hwf2.2
    rw [mBencode_dict, sortDicts_dict, sortKeys_map_comm]
    have hshape : (100 :: ((sortKeys kvs).map fun kv =>
        mBencode (.bytes kv.1) ++ mBencode kv.2).flatten ++ [101]) ++ rest =
        100 :: (((sortKeys kvs).map fun kv =>
          mBencode (.bytes kv.1) ++ mBencode kv.2).flatten ++ 101 :: rest) := by
      simp
    rw [hshape, bdecAux]
    rw [if_neg (by omega : ¬ (100 : Nat) = 105), if_neg (by omega : ¬ (100 : Nat) = 108),
      if_pos rfl]
    have hndS : ((sortKeys kvs).map Prod.fst).Nodup :=
      (List.Perm.nodup_iff ((sortKeys_perm kvs).map Prod.fst)).mpr hnd
    have hloop := bdecDictAux_enc (sortKeys kvs) rest
      (fun kv hkv r => bdecAux_mBencode kv.2
        (hent kv ((sortKeys_perm kvs).mem_iff.mp hkv)) r)
      hndS [] (fun kv _ q hq => absurd hq (List.not_mem_nil q))
    obtain ⟨hp, hbd⟩ := unconsume_some hloop
    rw [hbd]
    dsimp only
    simp only [unconsume, Option.map_some', Option.some_inj, Prod.mk.injEq,
      List.nil_append, List.length_cons, List.length_append, List.length_nil]
termination_by d _ _ => sizeOf d
decreasing_by
  · have := List.sizeOf_lt_of_mem hx
    simp only [BValue.list.sizeOf_spec]
    omega
  · have h2 : kv ∈ kvs := (sortKeys_perm kvs).mem_iff.mp hkv
    have := List.sizeOf_lt_of_mem h2
    obtain ⟨k0, v0⟩ := kv
    simp only [BValue.dict.sizeOf_spec, Prod.mk.sizeOf_spec] at *
    omega

/-! ### Python `==` between a value and its key-sorted form -/

/-- Elementwise `==` over a mapped list. -/
theorem pyEqList_map (xs : List BValue)
    (IH : ∀ x ∈ xs, pyEq (sortDicts x) x = true) :
    pyEqList (xs.map sortDicts) xs = true := by
  induction xs with
  | nil => rfl
  | cons x t ih =>
    simp only [List.map_cons]
    rw [pyEqList, Bool.and_eq_true]
    exact ⟨IH x (by simp), ih fun y hy => IH y (by simp [hy])⟩

/-- All bindings of the left dict are present with `==` values. -/
theorem pyEqEntries_all (l b : List (List Nat × BValue))
    (h : ∀ kv ∈ l, ∃ w, alGet b kv.1 = some w ∧ pyEq kv.2 w = true) :
    pyEqEntries l b = true := by
  induction l with
  | nil => rfl
  | cons p t ih =>
    obtain ⟨k, v⟩ := p
    rw [pyEqEntries, Bool.and_eq_true]
    obtain ⟨w, hw, hpe⟩ := h (k, v) (by simp)
    refine ⟨?_, ih fun q hq => h q (by simp [hq])⟩
    rw [hw]
    exact hpe

/-- Python `==` holds between the key-sorted form and the original value:
ints and byte strings are equal, lists compare elementwise, dicts compare
as maps (order-blind). -/
theorem pyEq_sortDicts : ∀ d : BValue, wfB d = true → pyEq (sortDicts d) d = true
  | .int n, _ => by
    rw [show sortDicts (.int n) = .int n from by rw [sortDicts]]
    rw [pyEq]
    simp
  | .bytes s, _ => by
    rw [show sortDicts (.bytes s) = .bytes s from by rw [sortDicts]]
    rw [pyEq]
    simp
  | .list xs, hwf => by
    have hwf2 : wfBList xs = true := by rw [wfB] at hwf; exact hwf
    rw [sortDicts_list, pyEq]
    exact pyEqList_map xs fun x hx =>
      pyEq_sortDicts x ((wfBList_iff xs).mp hwf2 x hx)
  | .dict kvs, hwf => by
    have hwf2 : (distinctKeys (kvs.map Prod.fst) && wfBEntries kvs) = true := by
      rw [wfB] at hwf; exact hwf
    rw [Bool.and_eq_true] at hwf2
    have hnd : (kvs.map Prod.fst).Nodup := (distinctKeys_iff _).mp hwf2.1
    have hent : ∀ kv ∈ kvs, wfB kv.2 = true := (wfBEntries_iff kvs).mp hwf2.2
    rw [sortDicts_dict, pyEq, Bool.and_eq_true]
    constructor
    · have hlen : (sortKeys (kvs.map fun kv => (kv.1, sortDicts kv.2))).length =
          kvs.length := by
        rw [(sortKeys_perm _).length_eq, List.length_map]
      rw [hlen]
      simp
    · apply pyEqEntries_all
      intro kv hkv
      have hmem : kv ∈ kvs.map fun q => (q.1, sortDicts q.2) :=
        (sortKeys_perm _).mem_iff.mp hkv
      obtain ⟨q, hq, hqe⟩ := List.mem_map.mp hmem
      refine ⟨q.2, ?_, ?_⟩
      · rw [← hqe]
        exact alGet_of_mem_nodup kvs hnd q.1 q.2 hq
      · rw [← hqe]
        exact pyEq_sortDicts q.2 (hent q hq)
termination_by d _ => sizeOf d
decreasing_by
  · have := List.sizeOf_lt_of_mem hx
    simp only [BValue.list.sizeOf_spec]
    omega
  · have := List.sizeOf_lt_of_mem hq
    obtain ⟨k0, v0⟩ := q
    simp only [BValue.dict.sizeOf_spec, Prod.mk.sizeOf_spec] at *
    omega

/-- **C9.** For every dict `d` with byte-string keys (values built from
ints, byte strings, lists and such dicts, keys of every dict node
distinct), `_bdecode(_bencode(d), 0)` yields a value Python-`==` to `d` and
consumes the whole output, and `_bencode(d)` emits the dict entries in
lexicographic (`bytesLeB`) order of their raw-byte keys — the emitted entry
list is the key-sorted permutation of `d`'s entries. -/
theorem bencode_bdecode_dict_roundtrip (kvs : List (List Nat × BValue))
    (hwf : wfB (.dict kvs) = true) :
    (∃ d' : BValue, mBdecode (mBencode (.dict kvs)) 0 =
        some (d', (mBencode (.dict kvs)).length) ∧
      pyEq d' (.dict kvs) = true) ∧
    mBencode (.dict kvs) =
      100 :: ((sortKeys kvs).map fun kv =>
        mBencode (.bytes kv.1) ++ mBencode kv.2).flatten ++ [101] ∧
    List.Pairwise (fun a b => bytesLeB a.1 b.1 = true) (sortKeys kvs) ∧
    List.Perm (sortKeys kvs) kvs := by
  refine ⟨⟨sortDicts (.dict kvs), ?_, pyEq_sortDicts _ hwf⟩, mBencode_dict kvs,
    sortKeys_sorted kvs, sortKeys_perm kvs⟩
  have h := bdecAux_mBencode (.dict kvs) hwf []
  rw [List.append_nil] at h
  obtain ⟨hp, hbd⟩ := unconsume_some h
  rw [mBdecode, List.drop_zero, hbd]
  simp

/-- Concrete dict for the `C9` witness: three entries with out-of-order
keys, one nested dict, one nested list. -/
def c9kvs : List (List Nat × BValue) :=
  [([107, 98], .int 7), ([107, 97], .dict [([120], .bytes [1, 2])]),
   ([107, 99], .list [.int 1, .bytes []])]

/-- `C9` witness: the round trip and sortedness at a concrete dict, the
well-formedness hypothesis discharged by evaluation. -/
theorem bencode_bdecode_dict_roundtrip_witness :
    wfB (.dict c9kvs) = true ∧
    ((∃ d' : BValue, mBdecode (mBencode (.dict c9kvs)) 0 =
          some (d', (mBencode (.dict c9kvs)).length) ∧
        pyEq d' (.dict c9kvs) = true) ∧
      mBencode (.dict c9kvs) =
        100 :: ((sortKeys c9kvs).map fun kv =>
          mBencode (.bytes kv.1) ++ mBencode kv.2).flatten ++ [101] ∧
      List.Pairwise (fun a b => bytesLeB a.1 b.1 = true) (sortKeys c9kvs) ∧
      List.Perm (sortKeys c9kvs) c9kvs) :=
  ⟨by decide, bencode_bdecode_dict_roundtrip c9kvs (by decide)⟩

end LSpider
